import Mathlib

/-!
Shallow embedding of `tree_node.go` from the zkbnb-smt repository (package
`bsmt`): the node-level engine of a versioned radix-16 sparse Merkle tree.

Go byte-slices holding hash values are modelled by the free term algebra
`Hsh`: the injected hash combiner `hasher.Hash(l, r)` becomes the
constructor `Hsh.comb l r`, the external empty-subtree table
`nilHashes.Get(depth)` becomes `Hsh.nilh depth`, opaque externally
produced hashes become `Hsh.leaf n`, and the Go `nil` byte-slice (used by
the code as the "slot not computed" marker) becomes `Hsh.nb`.

Locks are erased: the Go code uses them only for mutual exclusion, and
every claim is about the sequential (interleaving-free) behaviour of one
call.  Mutating methods become pure functions returning the new node.
-/

/-- Hash values ([]byte in Go), as a free term algebra over the injected
combiner and the empty-subtree table.  `nb` is the nil byte-slice. -/
inductive Hsh : Type where
  | nb : Hsh
  | nilh : Nat → Hsh
  | leaf : Nat → Hsh
  | comb : Hsh → Hsh → Hsh
deriving DecidableEq, Repr

/-- `VersionInfo` from the source: one version-ledger entry. -/
structure VersionInfo where
  Ver : Nat
  Hash : Hsh
deriving DecidableEq, Repr

/-- `versionSize` from the source: serialized bytes per ledger entry. -/
def versionSize : Nat := 40

/-- `hashSize` from the source. -/
def hashSize : Nat := 32

/-- `TreeNode` from the source.  Field order: Children, Internals,
Versions, nilHash, nilChildHash, path, depth, temporary, internalVer.
`Children` has length 16 (`none` = nil pointer), `Internals` length 14
(`Hsh.nb` = nil slice).  The lock fields are erased. -/
inductive TreeNode : Type where
  | mk : List (Option TreeNode) → List Hsh → List VersionInfo →
      Hsh → Hsh → Nat → Nat → Bool → List Nat → TreeNode

def TreeNode.Children : TreeNode → List (Option TreeNode)
  | .mk c _ _ _ _ _ _ _ _ => c

def TreeNode.Internals : TreeNode → List Hsh
  | .mk _ i _ _ _ _ _ _ _ => i

def TreeNode.Versions : TreeNode → List VersionInfo
  | .mk _ _ v _ _ _ _ _ _ => v

def TreeNode.nilHash : TreeNode → Hsh
  | .mk _ _ _ nh _ _ _ _ _ => nh

def TreeNode.nilChildHash : TreeNode → Hsh
  | .mk _ _ _ _ nch _ _ _ _ => nch

def TreeNode.path : TreeNode → Nat
  | .mk _ _ _ _ _ p _ _ _ => p

def TreeNode.depth : TreeNode → Nat
  | .mk _ _ _ _ _ _ d _ _ => d

def TreeNode.temporary : TreeNode → Bool
  | .mk _ _ _ _ _ _ _ t _ => t

def TreeNode.internalVer : TreeNode → List Nat
  | .mk _ _ _ _ _ _ _ _ iv => iv

def TreeNode.withChildren : TreeNode → List (Option TreeNode) → TreeNode
  | .mk _ i v nh nch p d t iv, c => .mk c i v nh nch p d t iv

def TreeNode.withInternals : TreeNode → List Hsh → TreeNode
  | .mk c _ v nh nch p d t iv, i => .mk c i v nh nch p d t iv

def TreeNode.withVersions : TreeNode → List VersionInfo → TreeNode
  | .mk c i _ nh nch p d t iv, v => .mk c i v nh nch p d t iv

/-- `NewTreeNode` from the source: fresh node with empty ledger, no
children, internal slots initialised from the empty-subtree table
(slots 0-1 at depth+1, 2-5 at depth+2, 6-13 at depth+3). -/
def NewTreeNode (depth path : Nat) : TreeNode :=
  .mk (List.replicate 16 none)
    (List.replicate 2 (Hsh.nilh (depth + 1)) ++
      List.replicate 4 (Hsh.nilh (depth + 2)) ++
      List.replicate 8 (Hsh.nilh (depth + 3)))
    [] (Hsh.nilh depth) (Hsh.nilh (depth + 4)) path depth false
    (List.replicate 14 0)

/-- `Root`/`root` from the source: latest ledger hash, or the node's own
empty-subtree hash when the ledger is empty. -/
def TreeNode.Root (node : TreeNode) : Hsh :=
  match node.Versions.getLast? with
  | none => node.nilHash
  | some v => v.Hash

/-- `newVersion` from the source, as a pure function on the ledger:
overwrite the last entry when its version matches, else append. -/
def newVersionL (vs : List VersionInfo) (v : VersionInfo) : List VersionInfo :=
  match vs.getLast? with
  | some lastV => if lastV.Ver = v.Ver then vs.dropLast ++ [v] else vs ++ [v]
  | none => [v]

/-- `Set` from the source. -/
def TreeNode.Set (node : TreeNode) (hash : Hsh) (version : Nat) : TreeNode :=
  node.withVersions (newVersionL node.Versions ⟨version, hash⟩)

/-- `latestVersion` from the source (0 on an empty ledger). -/
def latestVersionL (vs : List VersionInfo) : Nat :=
  match vs.getLast? with
  | none => 0
  | some v => v.Ver

def TreeNode.latestVersion (node : TreeNode) : Nat :=
  latestVersionL node.Versions

example : (NewTreeNode 0 0).Root = Hsh.nilh 0 := by decide
example : ((NewTreeNode 0 0).Set (.leaf 3) 1).Root = .leaf 3 := by decide
example : (((NewTreeNode 0 0).Set (.leaf 3) 1).Set (.leaf 4) 1).Versions
    = [⟨1, .leaf 4⟩] := by decide

def TreeNode.withInternalVer : TreeNode → List Nat → TreeNode
  | .mk c i v nh nch p d t _, iv => .mk c i v nh nch p d t iv

/-- `setInternal` from the source: if the slot is already non-nil report
"already set" (Bool `true`) and leave the node unchanged; otherwise store
the combined hash and the version.  Returns (node, hash, setBefore). -/
def TreeNode.setInternal (node : TreeNode) (idx : Nat) (left right : Hsh)
    (version : Nat) : TreeNode × Hsh × Bool :=
  if node.Internals.getD idx .nb ≠ .nb then
    (node, node.Internals.getD idx .nb, true)
  else
    let hash := Hsh.comb left right
    ((node.withInternals (node.Internals.set idx hash)).withInternalVer
      (node.internalVer.set idx version), hash, false)

/-- `getInternal` from the source (the version argument is unused there too). -/
def TreeNode.getInternal (node : TreeNode) (idx version : Nat) : Hsh :=
  node.Internals.getD idx .nb

/-- `leafInternalMap` from the source: the internal slots depending on a
nibble (a key outside the Go map yields the empty list, as ranging over a
missing entry does). -/
def leafInternalMap : Nat → List Nat
  | 0 => [0, 2, 6]
  | 1 => [0, 2, 6]
  | 2 => [0, 2, 7]
  | 3 => [0, 2, 7]
  | 4 => [0, 3, 8]
  | 5 => [0, 3, 8]
  | 6 => [0, 3, 9]
  | 7 => [0, 3, 9]
  | 8 => [1, 4, 10]
  | 9 => [1, 4, 10]
  | 10 => [1, 4, 11]
  | 11 => [1, 4, 11]
  | 12 => [1, 5, 12]
  | 13 => [1, 5, 12]
  | 14 => [1, 5, 13]
  | 15 => [1, 5, 13]
  | _ => []

/-- `mark` from the source: invalidate (set to nil) the internal slots
that depend on the given nibble. -/
def TreeNode.mark (node : TreeNode) (nibble : Nat) : TreeNode :=
  node.withInternals
    ((leafInternalMap nibble).foldl (fun ints i => ints.set i Hsh.nb)
      node.Internals)

/-- `Prune` from the source: returns the pruned node and the freed bytes. -/
def TreeNode.Prune (node : TreeNode) (oldestVersion : Nat) : TreeNode × Nat :=
  let vs := node.Versions
  if vs.length ≤ 1 then (node, 0)
  else
    let i := min (vs.findIdx (fun v => decide (oldestVersion ≤ v.Ver)))
      (vs.length - 1)
    if 0 < i ∧ oldestVersion < (vs.getD i ⟨0, .nb⟩).Ver then
      (node.withVersions (vs.drop (i - 1)),
        (vs.length - (vs.drop (i - 1)).length) * versionSize)
    else
      (node.withVersions (vs.drop i),
        (vs.length - (vs.drop i).length) * versionSize)

/-- `Rollback` from the source: drop the maximal suffix of entries with
version strictly above the target (the Go loop scans from the end);
returns (node, any-removed, freed bytes). -/
def TreeNode.Rollback (node : TreeNode) (targetVersion : Nat) :
    TreeNode × Bool × Nat :=
  if node.Versions = [] then (node, false, 0)
  else
    let dropped :=
      (node.Versions.reverse.takeWhile
        (fun v => decide (targetVersion < v.Ver))).length
    (node.withVersions (node.Versions.take (node.Versions.length - dropped)),
      decide (dropped ≠ 0), dropped * versionSize)

example : ((NewTreeNode 0 0).setInternal 3 .nb .nb 1).2.2 = true := by decide
example : (((NewTreeNode 0 0).mark 5).setInternal 3 (.leaf 0) (.leaf 1) 1).2.2
    = false := by decide
example :
    (TreeNode.Prune ((((NewTreeNode 0 0).Set (.leaf 1) 1).Set (.leaf 2) 2).Set
      (.leaf 3) 4) 3).1.Versions = [⟨2, .leaf 2⟩, ⟨4, .leaf 3⟩] := by decide
example :
    (TreeNode.Rollback ((((NewTreeNode 0 0).Set (.leaf 1) 1).Set (.leaf 2) 2).Set
      (.leaf 3) 4) 2).1.Versions = [⟨1, .leaf 1⟩, ⟨2, .leaf 2⟩] ∧
    (TreeNode.Rollback ((((NewTreeNode 0 0).Set (.leaf 1) 1).Set (.leaf 2) 2).Set
      (.leaf 3) 4) 2).2 = (true, 40) := by decide

/-- Root of an optional child: the Go sites read `Children[x].Root()` when
the pointer is non-nil and fall back to a supplied default otherwise. -/
def rootOfOpt (o : Option TreeNode) (dflt : Hsh) : Hsh :=
  match o with
  | some c => c.Root
  | none => dflt

/-- One iteration of the bottom-up ascent loop in `SetChildren`
(`for i := 4; i >= 1; i >>= 1`), at the already-halved nibble `nib`
(the Go loop does `nibble = nibble / 2` before each write, so the three
iterations run at nibble/2, nibble/4 and nibble/8): write the combined
hash into slot `pfx + nib` and read the next (left, right) pair.
Note Go's `prefix+nibble^1` parses as `(prefix+nibble)^1`. -/
def scStep (ints : List Hsh) (nib pfx : Nat) (left right : Hsh) :
    List Hsh × Hsh × Hsh :=
  let ints2 := ints.set (pfx + nib) (Hsh.comb left right)
  (ints2,
    if nib % 2 = 0 then ints2.getD (pfx + nib) .nb
      else ints2.getD ((pfx + nib) ^^^ 1) .nb,
    if nib % 2 = 0 then ints2.getD ((pfx + nib) ^^^ 1) .nb
      else ints2.getD (pfx + nib) .nb)

/-- `SetChildren` from the source: attach the child at the nibble,
recompute the 3 internal slots on its path bottom-up, then mint the new
root version from slots 0 and 1. -/
def TreeNode.SetChildren (node : TreeNode) (child : Option TreeNode)
    (nibble version : Nat) : TreeNode :=
  let ch := node.Children.set nibble child
  let lr : Hsh × Hsh :=
    (if nibble % 2 = 0 then
        rootOfOpt (ch.getD nibble none) node.nilChildHash
      else rootOfOpt (ch.getD (nibble ^^^ 1) none) node.nilChildHash,
      if nibble % 2 = 0 then
        rootOfOpt (ch.getD (nibble ^^^ 1) none) node.nilChildHash
      else rootOfOpt (ch.getD nibble none) node.nilChildHash)
  let s1 := scStep node.Internals (nibble / 2) 6 lr.1 lr.2
  let s2 := scStep s1.1 (nibble / 4) 2 s1.2.1 s1.2.2
  let s3 := scStep s2.1 (nibble / 8) 0 s2.2.1 s2.2.2
  ((node.withChildren ch).withInternals s3.1).withVersions
    (newVersionL node.Versions
      ⟨version, .comb (s3.1.getD 0 .nb) (s3.1.getD 1 .nb)⟩)

/-- The leaf-pair hash for children `i`, `i+1` (absent child contributes
the empty-subtree hash at depth+4). -/
def leafPairHash (children : List (Option TreeNode)) (nilChild : Hsh)
    (i : Nat) : Hsh :=
  Hsh.comb (rootOfOpt (children.getD i none) nilChild)
    (rootOfOpt (children.getD (i + 1) none) nilChild)

/-- `ComputeInternalHash` from the source: rebuild all 14 internal slots
from the 16 children in one pass; the version ledger is not touched. -/
def TreeNode.ComputeInternalHash (node : TreeNode) : TreeNode :=
  let step1 := (List.range 8).foldl
    (fun ints k =>
      ints.set (6 + k) (leafPairHash node.Children node.nilChildHash (2 * k)))
    node.Internals
  let step2 := [13, 11, 9, 7, 5, 3].foldl
    (fun ints i =>
      ints.set (i / 2 - 1) (Hsh.comb (ints.getD (i - 1) .nb) (ints.getD i .nb)))
    step1
  node.withInternals step2

/-- `childrenHash` from the source: resolve the (left, right) inputs of
internal slot `nibble`, from the children for the bottom level and from
lower internal slots otherwise. -/
def childrenHashL (children : List (Option TreeNode)) (ints : List Hsh)
    (nilChild : Hsh) (nibble : Nat) : Hsh × Hsh :=
  if 6 ≤ nibble then
    let nb := nibble * 2 + 2 - 14
    (rootOfOpt (children.getD nb none) nilChild,
      rootOfOpt (children.getD (nb ^^^ 1) none) nilChild)
  else
    let nb := nibble * 2 + 2
    (ints.getD nb .nb, ints.getD (nb ^^^ 1) .nb)

def insertDesc (x : Nat) : List Nat → List Nat
  | [] => [x]
  | y :: ys => if y ≤ x then x :: y :: ys else y :: insertDesc x ys

/-- The `sort.Slice(..., >)` call in `computeInternal`: the dirty-slot set
in descending order. -/
def sortDesc (l : List Nat) : List Nat := l.foldr insertDesc []

/-- One level of `computeInternal`: recompute every dirty slot in the
level's index range `[pfx, 2*pfx+1]`.  Within a level the written slots
are pairwise distinct and the reads only touch children or lower levels,
so the parallel pool of the source computes exactly this function. -/
def chLevel (children : List (Option TreeNode)) (nilChild : Hsh)
    (nbArray : List Nat) (ints : List Hsh) (pfx : Nat) : List Hsh :=
  nbArray.foldl (fun ints2 n =>
    if pfx ≤ n ∧ n ≤ 2 * pfx + 1 then
      let lr := childrenHashL children ints2 nilChild n
      ints2.set n (Hsh.comb lr.1 lr.2)
    else ints2) ints

/-- `computeInternal` from the source: recompute the dirty slots level by
level (level barriers of the worker pool become sequencing), then mint a
root version tagged with the node's current latest version.  A nil
nibble map (`none`) returns immediately. -/
def TreeNode.computeInternal (node : TreeNode) (nibbles : Option (List Nat)) :
    TreeNode :=
  match nibbles with
  | none => node
  | some ns =>
    let nbArray := sortDesc ns
    let i1 := chLevel node.Children node.nilChildHash nbArray node.Internals 6
    let i2 := chLevel node.Children node.nilChildHash nbArray i1 2
    let i3 := chLevel node.Children node.nilChildHash nbArray i2 0
    (node.withInternals i3).withVersions
      (newVersionL node.Versions
        ⟨latestVersionL node.Versions, .comb (i3.getD 0 .nb) (i3.getD 1 .nb)⟩)

/-- `journalKey` from the source. -/
structure journalKey where
  depth : Nat
  path : Nat
deriving DecidableEq, Repr

/-- The external journal of in-flight nodes keyed by (depth, path),
modelled as an association list; this is the `journals.get` lookup
contract consumed by `recompute`. -/
def journalGet (journals : List (journalKey × TreeNode)) (k : journalKey) :
    Option TreeNode :=
  (journals.find? (fun p => decide (p.1 = k))).map (fun p => p.2)

/-- One level of the `recompute` ascent: halve the nibble, try
`setInternal` on slot `pfx + nibble` (abort if already set), then read
the sibling slot `(pfx+nibble)^1` via `getInternal` (abort if nil);
on success return the next (nibble, left, right). -/
def rcLevel (node : TreeNode) (nibble pfx version : Nat) (left right : Hsh) :
    TreeNode × Option (Nat × Hsh × Hsh) :=
  let nib := nibble / 2
  let r := node.setInternal (pfx + nib) left right version
  if r.2.2 then (r.1, none)
  else
    let sibHash := r.1.getInternal ((pfx + nib) ^^^ 1) version
    if sibHash = .nb then (r.1, none)
    else if nib % 2 = 0 then (r.1, some (nib, r.2.1, sibHash))
    else (r.1, some (nib, sibHash, r.2.1))

/-- The three-level ascent of `recompute` (`for i := 4; i >= 1; i >>= 1`
followed by the final `newVersion` mint): abort without minting when any
level aborts, otherwise mint the new root from slots 0 and 1. -/
def rcChain (node : TreeNode) (nibble version : Nat) (l0 r0 : Hsh) :
    TreeNode × Bool :=
  match rcLevel node nibble 6 version l0 r0 with
  | (n1, none) => (n1, false)
  | (n1, some s1) =>
    match rcLevel n1 s1.1 2 version s1.2.1 s1.2.2 with
    | (n2, none) => (n2, false)
    | (n2, some s2) =>
      match rcLevel n2 s2.1 0 version s2.2.1 s2.2.2 with
      | (n3, none) => (n3, false)
      | (n3, some _) =>
        (n3.withVersions (newVersionL n3.Versions
          ⟨version,
            .comb (n3.Internals.getD 0 .nb) (n3.Internals.getD 1 .nb)⟩),
          true)

/-- `recompute` from the source: the cross-node cooperative protocol.
Returns the (possibly partially updated) node and the success flag. -/
def TreeNode.recompute (node child : TreeNode)
    (journals : List (journalKey × TreeNode)) (version : Nat) :
    TreeNode × Bool :=
  let nibble := child.path % 16
  let sib := journalGet journals ⟨child.depth, child.path ^^^ 1⟩
  let lr0 : Option (Hsh × Hsh) :=
    match sib with
    | some s =>
      if s.latestVersion < version then none
      else if nibble % 2 = 0 then some (child.Root, s.Root)
      else some (s.Root, child.Root)
    | none =>
      if nibble % 2 = 0 then some (child.Root, node.nilChildHash)
      else some (node.nilChildHash, child.Root)
  match lr0 with
  | none => (node, false)
  | some lr => rcChain node nibble version lr.1 lr.2

/-- `StorageLeafNode` from the source. -/
structure StorageLeafNode where
  Versions : List VersionInfo
deriving DecidableEq, Repr

/-- `StorageTreeNode` from the source. -/
structure StorageTreeNode where
  Children : List (Option StorageLeafNode)
  Internals : List Hsh
  Versions : List VersionInfo
  Path : Nat
deriving DecidableEq, Repr

/-- `ToStorageTreeNode` from the source: keep per-child ledgers only. -/
def TreeNode.ToStorageTreeNode (node : TreeNode) : StorageTreeNode :=
  { Children := node.Children.map (fun o => o.map (fun c => ⟨c.Versions⟩)),
    Internals := node.Internals,
    Versions := node.Versions,
    Path := node.path }

/-- The child node built by `ToTreeNode`: only the ledger is carried, the
structural fields take Go zero values, and the node is `temporary`. -/
def mkTemporaryChild (vs : List VersionInfo) (depth : Nat) : TreeNode :=
  .mk (List.replicate 16 none) (List.replicate 14 .nb) vs
    (.nilh (depth + 4)) (.nilh (depth + 8)) 0 0 true []

/-- `ToTreeNode` from the source: reconstruct a node at the given depth;
children with a nonempty persisted ledger come back as `temporary`
nodes, others stay absent. -/
def StorageTreeNode.ToTreeNode (node : StorageTreeNode) (depth : Nat) :
    TreeNode :=
  TreeNode.mk
    (node.Children.map (fun o =>
      match o with
      | some s =>
        if 0 < s.Versions.length then some (mkTemporaryChild s.Versions depth)
        else none
      | none => none))
    node.Internals node.Versions (.nilh depth) (.nilh (depth + 4))
    node.Path depth false []

example :
    ((NewTreeNode 0 0).SetChildren (some ((NewTreeNode 4 3).Set (.leaf 9) 1))
      3 1).Versions.length = 1 := by decide
example :
    (((NewTreeNode 0 0).ComputeInternalHash).SetChildren
        (some ((NewTreeNode 4 3).Set (.leaf 9) 1)) 3 1).Internals =
      ((((NewTreeNode 0 0).ComputeInternalHash).withChildren
          (((NewTreeNode 0 0).ComputeInternalHash).Children.set 3
            (some ((NewTreeNode 4 3).Set (.leaf 9) 1)))).ComputeInternalHash).Internals := by
  decide
example :
    (((NewTreeNode 0 0).mark 0).recompute ((NewTreeNode 4 0).Set (.leaf 9) 1)
      [] 1).2 = true := by decide
example :
    (((NewTreeNode 0 0).mark 0).recompute ((NewTreeNode 4 2).Set (.leaf 9) 1)
      [] 1).2 = false := by decide

/-! ## General helper lemmas -/

@[simp] theorem children_mk (c i v nh nch p d t iv) :
    (TreeNode.mk c i v nh nch p d t iv).Children = c := rfl

@[simp] theorem internals_mk (c i v nh nch p d t iv) :
    (TreeNode.mk c i v nh nch p d t iv).Internals = i := rfl

@[simp] theorem versions_mk (c i v nh nch p d t iv) :
    (TreeNode.mk c i v nh nch p d t iv).Versions = v := rfl

@[simp] theorem nilHash_mk (c i v nh nch p d t iv) :
    (TreeNode.mk c i v nh nch p d t iv).nilHash = nh := rfl

@[simp] theorem nilChildHash_mk (c i v nh nch p d t iv) :
    (TreeNode.mk c i v nh nch p d t iv).nilChildHash = nch := rfl

@[simp] theorem path_mk (c i v nh nch p d t iv) :
    (TreeNode.mk c i v nh nch p d t iv).path = p := rfl

@[simp] theorem depth_mk (c i v nh nch p d t iv) :
    (TreeNode.mk c i v nh nch p d t iv).depth = d := rfl

@[simp] theorem temporary_mk (c i v nh nch p d t iv) :
    (TreeNode.mk c i v nh nch p d t iv).temporary = t := rfl

@[simp] theorem internalVer_mk (c i v nh nch p d t iv) :
    (TreeNode.mk c i v nh nch p d t iv).internalVer = iv := rfl

@[simp] theorem withChildren_mk (c i v nh nch p d t iv c2) :
    (TreeNode.mk c i v nh nch p d t iv).withChildren c2 =
      .mk c2 i v nh nch p d t iv := rfl

@[simp] theorem withInternals_mk (c i v nh nch p d t iv i2) :
    (TreeNode.mk c i v nh nch p d t iv).withInternals i2 =
      .mk c i2 v nh nch p d t iv := rfl

@[simp] theorem withVersions_mk (c i v nh nch p d t iv v2) :
    (TreeNode.mk c i v nh nch p d t iv).withVersions v2 =
      .mk c i v2 nh nch p d t iv := rfl

@[simp] theorem withInternalVer_mk (c i v nh nch p d t iv iv2) :
    (TreeNode.mk c i v nh nch p d t iv).withInternalVer iv2 =
      .mk c i v nh nch p d t iv2 := rfl

theorem getDSetSelf {α : Type} (l : List α) (i : Nat) (x d : α)
    (h : i < l.length) : (l.set i x).getD i d = x := by
  simp [List.getD, List.getElem?_set_self, h]

theorem getDSetNe {α : Type} (l : List α) (i j : Nat) (x d : α)
    (h : i ≠ j) : (l.set i x).getD j d = l.getD j d := by
  simp [List.getD, List.getElem?_set_ne h]

theorem getLastNewVersionL (vs : List VersionInfo) (v : VersionInfo) :
    (newVersionL vs v).getLast? = some v := by
  unfold newVersionL
  match h : vs.getLast? with
  | none => simp
  | some lv =>
    by_cases he : lv.Ver = v.Ver <;> simp [he]

/-! ## Claims C9 and C10 -/

/-- Claim C9: `Root()` returns the node's empty-subtree hash (`nilHash`,
which `NewTreeNode` sets to the depth's table entry) when the version
ledger is empty and the latest ledger entry's hash otherwise; a fresh
depth-0 node, whose 16 children are all absent, has
`Root() = nilHash(0)`. -/
theorem C9_root_latest_or_default (n : TreeNode) (d p : Nat) :
    (n.Versions = [] → n.Root = n.nilHash) ∧
    (∀ v, n.Versions.getLast? = some v → n.Root = v.Hash) ∧
    (NewTreeNode d p).Root = Hsh.nilh d ∧
    (NewTreeNode 0 p).Root = Hsh.nilh 0 ∧
    (NewTreeNode 0 p).Children = List.replicate 16 none := by
  refine ⟨?_, ?_, rfl, rfl, rfl⟩
  · intro h
    simp [TreeNode.Root, h]
  · intro v h
    simp [TreeNode.Root, h]

theorem C9_root_latest_or_default_witness :
    (NewTreeNode 2 5).Root = (NewTreeNode 2 5).nilHash ∧
    ((NewTreeNode 2 5).Set (.leaf 1) 1).Root = Hsh.leaf 1 :=
  ⟨(C9_root_latest_or_default (NewTreeNode 2 5) 2 5).1 (by decide),
    (C9_root_latest_or_default ((NewTreeNode 2 5).Set (.leaf 1) 1) 2 5).2.1
      ⟨1, .leaf 1⟩ (by decide)⟩

/-- Claim C10: `NewTreeNode` initialises every internal slot to a non-nil
empty-subtree hash (slots 0-1 at depth+1, 2-5 at depth+2, 6-13 at
depth+3), so on a fresh node `setInternal` reports "already set" for
every slot, until a slot is invalidated, e.g. set to nil by `mark`. -/
theorem C10_fresh_internals (d p i : Nat) (hi : i < 14) (l r : Hsh) (v : Nat)
    (nib : Nat) (hnib : nib < 16) (j : Nat) (hj : j ∈ leafInternalMap nib) :
    (NewTreeNode d p).Internals.getD i .nb =
      (if i < 2 then .nilh (d + 1) else if i < 6 then .nilh (d + 2)
        else .nilh (d + 3)) ∧
    (NewTreeNode d p).Internals.getD i .nb ≠ .nb ∧
    ((NewTreeNode d p).setInternal i l r v).2.2 = true ∧
    (((NewTreeNode d p).mark nib).setInternal j l r v).2.2 = false := by
  refine ⟨?_, ?_, ?_, ?_⟩
  · interval_cases i <;> rfl
  · interval_cases i <;>
      first
        | exact fun h => Hsh.noConfusion (show Hsh.nilh (d + 1) = Hsh.nb from h)
        | exact fun h => Hsh.noConfusion (show Hsh.nilh (d + 2) = Hsh.nb from h)
        | exact fun h => Hsh.noConfusion (show Hsh.nilh (d + 3) = Hsh.nb from h)
  · interval_cases i <;> rfl
  · interval_cases nib <;> fin_cases hj <;> rfl

/-! ## Claim C4: Prune -/

/-- If a predicate holds along a list exactly at indices below `k`, the
`takeWhile` prefix has length exactly `k`. -/
theorem lengthTakeWhileOfIff {α : Type} (Q : α → Bool) (vs : List α) (k : Nat)
    (hk : k ≤ vs.length)
    (h : ∀ i (hi : i < vs.length), Q vs[i] = true ↔ i < k) :
    (vs.takeWhile Q).length = k := by
  have hm : vs.findIdx (fun a => !Q a) = k := by
    rcases Nat.lt_or_ge k vs.length with hlt | hge
    · apply Nat.le_antisymm
      · by_contra hc
        push_neg at hc
        have hq := @List.not_of_lt_findIdx _ (fun a => !Q a) vs k hc
        simp only [Bool.not_eq_false'] at hq
        have := (h k hlt).mp hq
        omega
      · by_contra hc
        push_neg at hc
        have hflt : vs.findIdx (fun a => !Q a) < vs.length :=
          lt_of_lt_of_le hc hk
        have hq := @List.findIdx_getElem _ (fun a => !Q a) vs hflt
        simp only [Bool.not_eq_true'] at hq
        have h2 := (h _ hflt).mpr hc
        rw [h2] at hq
        exact Bool.noConfusion hq
    · have hkeq : k = vs.length := Nat.le_antisymm hk hge
      subst hkeq
      apply List.findIdx_eq_length.mpr
      intro x hx
      rcases List.mem_iff_getElem.mp hx with ⟨n, hn, rfl⟩
      simp only [Bool.not_eq_false']
      exact (h n hn).mpr hn
  rw [List.takeWhile_eq_take_findIdx_not, hm, List.length_take,
    Nat.min_eq_left hk]

/-- Claim C4 as frozen is false at a ledger containing an entry exactly
at the horizon: with ledger versions [1, 2] and `oldestVersion = 2`, the
newest entry still strictly below the horizon is version 1, and no entry
is strictly older than it, so the claim predicts that nothing is
removed; the code removes the version-1 entry (retaining the entry
exactly at the horizon) and returns 40. -/
theorem C4_prune_counterexample :
    ((((NewTreeNode 0 0).Set (.leaf 0) 1).Set (.leaf 1) 2).Prune 2).1.Versions
        = [⟨2, .leaf 1⟩] ∧
    ((((NewTreeNode 0 0).Set (.leaf 0) 1).Set (.leaf 1) 2).Prune 2).2 = 40 ∧
    (((NewTreeNode 0 0).Set (.leaf 0) 1).Set (.leaf 1) 2).Versions.filter
        (fun v => decide (v.Ver < 1)) = [] ∧
    (⟨1, .leaf 0⟩ : VersionInfo) ∈
      (((NewTreeNode 0 0).Set (.leaf 0) 1).Set (.leaf 1) 2).Versions := by
  refine ⟨?_, ?_, ?_, ?_⟩ <;> decide

/-- Claim C4, amended: on a strictly-ascending ledger with at least two
entries, `Prune(oldestVersion)` retains exactly the suffix starting at
the newest entry with version at or before the horizon (`≤ oldestVersion`,
not `< oldestVersion`), keeping the whole ledger when no such entry
exists; the latest entry, and hence `Root()`, is never removed; the
return value is the number of removed entries times the 40-byte entry
size; and the call removes nothing and returns 0 whenever the ledger
holds at most one entry. -/
theorem C4_prune_amended (node : TreeNode) (oldest : Nat)
    (hs : node.Versions.Pairwise (fun a b => a.Ver < b.Ver))
    (h2 : 2 ≤ node.Versions.length) :
    (node.Prune oldest).1.Versions =
      node.Versions.drop
        ((node.Versions.takeWhile (fun v => decide (v.Ver ≤ oldest))).length
          - 1) ∧
    (node.Prune oldest).2 =
      ((node.Versions.takeWhile (fun v => decide (v.Ver ≤ oldest))).length
        - 1) * versionSize ∧
    (node.Prune oldest).1.Versions.getLast? = node.Versions.getLast? ∧
    (node.Prune oldest).1.Root = node.Root ∧
    ((∃ x ∈ node.Versions, x.Ver ≤ oldest) →
      ((node.Prune oldest).1.Versions.filter
        (fun v => decide (v.Ver ≤ oldest))).length = 1) ∧
    (∀ m : TreeNode, ∀ ov : Nat, m.Versions.length ≤ 1 → m.Prune ov = (m, 0)) := by
  rcases node with ⟨c, ints, vs, nh, nch, p, dp, tp, iv⟩
  simp only [versions_mk] at hs h2 ⊢
  have hsg := List.pairwise_iff_getElem.mp hs
  have hlen0 : ¬ (vs.length ≤ 1) := by omega
  have hbelow : ∀ (i) (hi : i < vs.length)
      (hj2 : i < vs.findIdx (fun v => decide (oldest ≤ v.Ver))),
      vs[i].Ver < oldest := by
    intro i hi hj2
    have hq := @List.not_of_lt_findIdx _ (fun v => decide (oldest ≤ v.Ver))
      vs i hj2
    simp only [decide_eq_false_iff_not, not_le] at hq
    exact hq
  -- the key computation, by cases on where findIdx lands
  have key :
      (TreeNode.Prune (.mk c ints vs nh nch p dp tp iv) oldest).1.Versions =
        vs.drop ((vs.takeWhile (fun v => decide (v.Ver ≤ oldest))).length - 1) ∧
      (TreeNode.Prune (.mk c ints vs nh nch p dp tp iv) oldest).2 =
        ((vs.takeWhile (fun v => decide (v.Ver ≤ oldest))).length - 1) *
          versionSize ∧
      (vs.takeWhile (fun v => decide (v.Ver ≤ oldest))).length - 1 <
        vs.length ∧
      (∀ i (hi : i < vs.length), (decide (vs[i].Ver ≤ oldest)) = true ↔
        i < (vs.takeWhile (fun v => decide (v.Ver ≤ oldest))).length) := by
    have hjle := @List.findIdx_le_length _ (fun v => decide (oldest ≤ v.Ver)) vs
    rcases Nat.lt_or_ge (vs.findIdx (fun v => decide (oldest ≤ v.Ver)))
      vs.length with hjlt | hjge
    · -- some entry has Ver ≥ oldest
      set j := vs.findIdx (fun v => decide (oldest ≤ v.Ver)) with hjdef
      have hPj : oldest ≤ vs[j].Ver := by
        have hq := @List.findIdx_getElem _ (fun v => decide (oldest ≤ v.Ver))
          vs hjlt
        simpa using hq
      rcases Nat.lt_or_ge oldest vs[j].Ver with hgt | hle2
      · -- vs[j].Ver > oldest : keep from j-1 (or everything if j = 0)
        have hiff : ∀ i (hi : i < vs.length),
            (decide (vs[i].Ver ≤ oldest)) = true ↔ i < j := by
          intro i hi
          simp only [decide_eq_true_eq]
          constructor
          · intro hq
            by_contra hc
            push_neg at hc
            rcases Nat.eq_or_lt_of_le hc with rfl | hlt2
            · omega
            · have := hsg j i hjlt hi hlt2
              omega
          · intro hij
            exact le_of_lt (hbelow i hi hij)
        have ht : (vs.takeWhile (fun v => decide (v.Ver ≤ oldest))).length
            = j := lengthTakeWhileOfIff _ vs j (le_of_lt hjlt) hiff
        rw [ht]
        have hmin : min j (vs.length - 1) = j := by omega
        constructor
        · simp only [TreeNode.Prune, versions_mk]
          rw [if_neg hlen0, hmin]
          by_cases hj0 : 0 < j
          · rw [if_pos ⟨hj0, by rw [List.getD_eq_getElem vs _ hjlt]; exact hgt⟩]
            simp
          · have hj0' : j = 0 := by omega
            rw [if_neg (by rw [hj0']; simp)]
            simp [hj0']
        constructor
        · simp only [TreeNode.Prune, versions_mk]
          rw [if_neg hlen0, hmin]
          by_cases hj0 : 0 < j
          · rw [if_pos ⟨hj0, by rw [List.getD_eq_getElem vs _ hjlt]; exact hgt⟩]
            simp only [List.length_drop]
            congr 1
            omega
          · have hj0' : j = 0 := by omega
            rw [if_neg (by rw [hj0']; simp)]
            simp [hj0']
        · exact ⟨by omega, hiff⟩
      · -- vs[j].Ver = oldest : keep from j
        have heq : vs[j].Ver = oldest := by omega
        have hiff : ∀ i (hi : i < vs.length),
            (decide (vs[i].Ver ≤ oldest)) = true ↔ i < j + 1 := by
          intro i hi
          simp only [decide_eq_true_eq]
          constructor
          · intro hq
            by_contra hc
            push_neg at hc
            have := hsg j i hjlt hi (by omega)
            omega
          · intro hij
            rcases Nat.lt_or_ge i j with hij2 | hij3
            · exact le_of_lt (hbelow i hi hij2)
            · have : i = j := by omega
              subst this
              omega
        have ht : (vs.takeWhile (fun v => decide (v.Ver ≤ oldest))).length
            = j + 1 := lengthTakeWhileOfIff _ vs (j + 1) (by omega) hiff
        rw [ht]
        have hmin : min j (vs.length - 1) = j := by omega
        have hcond : ¬ (0 < j ∧ oldest < (vs.getD j ⟨0, .nb⟩).Ver) := by
          rw [List.getD_eq_getElem vs _ hjlt]
          omega
        constructor
        · simp only [TreeNode.Prune, versions_mk]
          rw [if_neg hlen0, hmin, if_neg hcond]
          simp
        constructor
        · simp only [TreeNode.Prune, versions_mk]
          rw [if_neg hlen0, hmin, if_neg hcond]
          simp only [List.length_drop]
          congr 1
          omega
        · exact ⟨by omega, hiff⟩
    · -- no entry has Ver ≥ oldest : keep only the latest entry
      have hj : vs.findIdx (fun v => decide (oldest ≤ v.Ver)) = vs.length := by
        omega
      have hiff : ∀ i (hi : i < vs.length),
          (decide (vs[i].Ver ≤ oldest)) = true ↔ i < vs.length := by
        intro i hi
        simp only [decide_eq_true_eq]
        constructor
        · intro _
          exact hi
        · intro _
          exact le_of_lt (hbelow i hi (by omega))
      have ht : (vs.takeWhile (fun v => decide (v.Ver ≤ oldest))).length
          = vs.length := lengthTakeWhileOfIff _ vs vs.length le_rfl hiff
      rw [ht]
      have hmin : min (vs.findIdx (fun v => decide (oldest ≤ v.Ver)))
          (vs.length - 1) = vs.length - 1 := by omega
      have hlast : vs.length - 1 < vs.length := by omega
      have hcond : ¬ (0 < vs.length - 1 ∧
          oldest < (vs.getD (vs.length - 1) ⟨0, .nb⟩).Ver) := by
        rw [List.getD_eq_getElem vs _ hlast]
        have := hbelow (vs.length - 1) hlast (by omega)
        omega
      refine ⟨?_, ?_, by omega, hiff⟩
      · simp only [TreeNode.Prune, versions_mk]
        rw [if_neg hlen0, hmin, if_neg hcond]
        simp
      · simp only [TreeNode.Prune, versions_mk]
        rw [if_neg hlen0, hmin, if_neg hcond]
        simp only [List.length_drop]
        congr 1
        omega
  obtain ⟨k1, k2, k3, k4⟩ := key
  refine ⟨k1, k2, ?_, ?_, ?_, ?_⟩
  · rw [k1, List.getLast?_drop, if_neg (by omega)]
  · -- Root is preserved: the ledger keeps its last entry and the nilHash
    -- field is untouched
    have hnh : (TreeNode.Prune (.mk c ints vs nh nch p dp tp iv)
        oldest).1.nilHash = nh := by
      simp only [TreeNode.Prune, versions_mk]
      rw [if_neg hlen0]
      split <;> simp
    have hlast : ((TreeNode.Prune (.mk c ints vs nh nch p dp tp iv)
        oldest).1.Versions).getLast? = vs.getLast? := by
      rw [k1, List.getLast?_drop, if_neg (by omega)]
    simp only [TreeNode.Root, hlast, hnh, versions_mk, nilHash_mk]
  · intro hex
    have h0t : 0 <
        (vs.takeWhile (fun v => decide (v.Ver ≤ oldest))).length := by
      rcases hex with ⟨x, hx, hxle⟩
      rcases List.mem_iff_getElem.mp hx with ⟨n, hn, rfl⟩
      have := (k4 n hn).mp (by simpa using hxle)
      omega
    rw [k1]
    rw [List.drop_eq_getElem_cons k3]
    have hQhead : (decide
        (vs[(vs.takeWhile (fun v => decide (v.Ver ≤ oldest))).length - 1].Ver
          ≤ oldest)) = true := (k4 _ k3).mpr (by omega)
    simp only [List.filter_cons, hQhead, if_true]
    have hrest : (vs.drop
        ((vs.takeWhile (fun v => decide (v.Ver ≤ oldest))).length - 1 + 1)).filter
          (fun v => decide (v.Ver ≤ oldest)) = [] := by
      apply List.filter_eq_nil_iff.mpr
      intro a ha
      rcases List.mem_iff_getElem.mp ha with ⟨n, hn, rfl⟩
      rw [List.getElem_drop]
      simp only [List.length_drop] at hn
      intro hcon
      have := (k4 _ (by omega)).mp hcon
      omega
    rw [hrest]
    rfl
  · intro m ov hm
    rcases m with ⟨c2, ints2, vs2, nh2, nch2, p2, dp2, tp2, iv2⟩
    simp only [versions_mk] at hm
    simp [TreeNode.Prune, hm]

def c4wNode : TreeNode :=
  (((NewTreeNode 0 0).Set (.leaf 0) 1).Set (.leaf 1) 3).Set (.leaf 2) 5

theorem C4_prune_amended_witness :
    (c4wNode.Prune 4).1.Versions =
      c4wNode.Versions.drop
        ((c4wNode.Versions.takeWhile (fun v => decide (v.Ver ≤ 4))).length
          - 1) ∧
    (c4wNode.Prune 4).1.Versions.getLast? = c4wNode.Versions.getLast? :=
  ⟨(C4_prune_amended c4wNode 4 (by decide) (by decide)).1,
    (C4_prune_amended c4wNode 4 (by decide) (by decide)).2.2.1⟩

/-! ## Claim C5: Rollback -/

theorem lengthTakeWhileLe {α : Type} (p : α → Bool) (l : List α) :
    (l.takeWhile p).length ≤ l.length := by
  rw [List.takeWhile_eq_take_findIdx_not, List.length_take]
  exact Nat.min_le_right _ _

/-- On a ledger sorted by non-decreasing version, dropping the maximal
suffix of entries above the target (what the backwards scan of
`Rollback` does) is exactly filtering to the entries at or below it. -/
theorem rollbackKeepSorted (vs : List VersionInfo) (target : Nat)
    (hs : vs.Pairwise (fun a b => a.Ver ≤ b.Ver)) :
    vs.take (vs.length -
        (vs.reverse.takeWhile (fun v => decide (target < v.Ver))).length) =
      vs.filter (fun v => decide (v.Ver ≤ target)) := by
  induction vs using List.reverseRecOn with
  | nil => simp
  | append_singleton l a ih =>
    have hpw := List.pairwise_append.mp hs
    have hl := hpw.1
    have hcross : ∀ x ∈ l, x.Ver ≤ a.Ver := by
      intro x hx
      exact hpw.2.2 x hx a (List.mem_singleton_self a)
    have hdle : (l.reverse.takeWhile
        (fun v => decide (target < v.Ver))).length ≤ l.length := by
      have h1 := lengthTakeWhileLe (fun v => decide (target < v.Ver))
        l.reverse
      simpa using h1
    by_cases ha : target < a.Ver
    · have htw : ((l ++ [a]).reverse.takeWhile
          (fun v => decide (target < v.Ver))).length =
          (l.reverse.takeWhile (fun v => decide (target < v.Ver))).length
            + 1 := by
        simp [List.takeWhile_cons, ha]
      rw [htw]
      have hlen : (l ++ [a]).length = l.length + 1 := by simp
      rw [hlen]
      have harith : l.length + 1 -
          ((l.reverse.takeWhile (fun v => decide (target < v.Ver))).length
            + 1) =
          l.length -
            (l.reverse.takeWhile (fun v => decide (target < v.Ver))).length :=
        by omega
      rw [harith, List.take_append_of_le_length (by omega), ih hl,
        List.filter_append]
      simp [ha]
    · have htw : ((l ++ [a]).reverse.takeWhile
          (fun v => decide (target < v.Ver))).length = 0 := by
        simp [List.takeWhile_cons, ha]
      rw [htw]
      rw [Nat.sub_zero, List.take_length]
      symm
      apply List.filter_eq_self.mpr
      intro x hx
      rcases List.mem_append.mp hx with hxl | hxa
      · have := hcross x hxl
        simp only [decide_eq_true_eq]
        omega
      · rcases List.mem_singleton.mp hxa with rfl
        simp only [decide_eq_true_eq]
        omega

/-- Claim C5: on a (version-sorted) ledger, `Rollback(targetVersion)`
removes exactly the entries with version strictly greater than the
target (the kept ledger is the filter at or below it), reports `true`
iff at least one entry was removed, returns removed x 40 freed bytes,
and is a no-op returning (false, 0) on an empty ledger. -/
theorem C5_rollback (node : TreeNode) (target : Nat)
    (hs : node.Versions.Pairwise (fun a b => a.Ver ≤ b.Ver)) :
    (node.Rollback target).1.Versions =
      node.Versions.filter (fun v => decide (v.Ver ≤ target)) ∧
    ((node.Rollback target).2.1 = true ↔
      (node.Rollback target).1.Versions.length < node.Versions.length) ∧
    (node.Rollback target).2.2 =
      (node.Versions.length - (node.Rollback target).1.Versions.length) *
        versionSize ∧
    (∀ m : TreeNode, m.Versions = [] → m.Rollback target = (m, false, 0)) := by
  have hempty : ∀ m : TreeNode, m.Versions = [] →
      m.Rollback target = (m, false, 0) := by
    intro m hm
    rcases m with ⟨c2, ints2, vs2, nh2, nch2, p2, dp2, tp2, iv2⟩
    simp only [versions_mk] at hm
    simp [TreeNode.Rollback, hm]
  rcases node with ⟨c, ints, vs, nh, nch, p, dp, tp, iv⟩
  simp only [versions_mk] at hs ⊢
  by_cases hnil : vs = []
  · subst hnil
    exact ⟨by simp [TreeNode.Rollback], by simp [TreeNode.Rollback],
      by simp [TreeNode.Rollback], hempty⟩
  · have hdle : (vs.reverse.takeWhile
        (fun v => decide (target < v.Ver))).length ≤ vs.length := by
      have h1 := lengthTakeWhileLe (fun v => decide (target < v.Ver))
        vs.reverse
      simpa using h1
    have hpos : 0 < vs.length := List.length_pos.mpr hnil
    have hkey := rollbackKeepSorted vs target hs
    have hres : (TreeNode.Rollback (.mk c ints vs nh nch p dp tp iv)
        target) =
        (TreeNode.mk c ints
          (vs.take (vs.length - (vs.reverse.takeWhile
            (fun v => decide (target < v.Ver))).length)) nh nch p dp tp iv,
          decide ((vs.reverse.takeWhile
            (fun v => decide (target < v.Ver))).length ≠ 0),
          (vs.reverse.takeWhile
            (fun v => decide (target < v.Ver))).length * versionSize) := by
      simp only [TreeNode.Rollback, versions_mk]
      rw [if_neg hnil]
      simp
    rw [hres]
    simp only [versions_mk]
    have hklen : (vs.take (vs.length - (vs.reverse.takeWhile
        (fun v => decide (target < v.Ver))).length)).length =
        vs.length - (vs.reverse.takeWhile
          (fun v => decide (target < v.Ver))).length := by
      rw [List.length_take]
      omega
    refine ⟨hkey, ?_, ?_, hempty⟩
    · rw [hklen]
      simp only [decide_eq_true_eq]
      omega
    · rw [hklen]
      congr 1
      omega

theorem C5_rollback_witness :
    (c4wNode.Rollback 3).1.Versions =
      c4wNode.Versions.filter (fun v => decide (v.Ver ≤ 3)) ∧
    ((c4wNode.Rollback 3).2.1 = true ↔
      (c4wNode.Rollback 3).1.Versions.length < c4wNode.Versions.length) :=
  ⟨(C5_rollback c4wNode 3 (by decide)).1, (C5_rollback c4wNode 3 (by decide)).2.1⟩

theorem C10_fresh_internals_witness :
    (NewTreeNode 0 0).Internals.getD 5 .nb =
      (if 5 < 2 then Hsh.nilh 1 else if 5 < 6 then Hsh.nilh 2
        else Hsh.nilh 3) ∧
    (NewTreeNode 0 0).Internals.getD 5 .nb ≠ .nb ∧
    ((NewTreeNode 0 0).setInternal 5 (.leaf 0) (.leaf 1) 3).2.2 = true ∧
    (((NewTreeNode 0 0).mark 9).setInternal 4 (.leaf 0) (.leaf 1) 3).2.2 =
      false :=
  C10_fresh_internals 0 0 5 (by decide) (.leaf 0) (.leaf 1) 3 9 (by decide) 4
    (by decide)

/-! ## Claim C6: version monotonicity -/

/-- The ledger-minting operations quantified over by claim C6. -/
inductive LedgerOp : Type where
  | set (hash : Hsh) (version : Nat) : LedgerOp
  | setChildren (child : Option TreeNode) (nibble : Nat) (version : Nat) :
      LedgerOp

def LedgerOp.version : LedgerOp → Nat
  | .set _ v => v
  | .setChildren _ _ v => v

def applyLedgerOp (n : TreeNode) : LedgerOp → TreeNode
  | .set h v => n.Set h v
  | .setChildren c k v => n.SetChildren c k v

@[simp] theorem versions_set (n : TreeNode) (h : Hsh) (v : Nat) :
    (n.Set h v).Versions = newVersionL n.Versions ⟨v, h⟩ := by
  rcases n with ⟨c, ints, vs, nh, nch, p, dp, tp, iv⟩
  simp [TreeNode.Set]

theorem versions_setChildren (n : TreeNode) (c : Option TreeNode) (k v : Nat) :
    ∃ hh, (n.SetChildren c k v).Versions = newVersionL n.Versions ⟨v, hh⟩ := by
  rcases n with ⟨cs, ints, vs, nh, nch, p, dp, tp, iv⟩
  simp only [TreeNode.SetChildren, versions_mk, withChildren_mk,
    withInternals_mk, withVersions_mk]
  exact ⟨_, rfl⟩

/-- `newVersion` keeps the ledger strictly sorted when the minted version
is at or above the current latest, and the new latest is the minted
version. -/
theorem newVersionSorted (vs : List VersionInfo) (v : VersionInfo)
    (hs : vs.Pairwise (fun a b => a.Ver < b.Ver))
    (hb : latestVersionL vs ≤ v.Ver) :
    (newVersionL vs v).Pairwise (fun a b => a.Ver < b.Ver) ∧
    latestVersionL (newVersionL vs v) = v.Ver := by
  by_cases hnil : vs = []
  · subst hnil
    simp [newVersionL, latestVersionL]
  · have hlast := List.getLast?_eq_getLast vs hnil
    have hdecomp := List.dropLast_append_getLast hnil
    have hpw : vs.Pairwise (fun a b => a.Ver < b.Ver) := hs
    rw [← hdecomp] at hpw
    have hsplit := List.pairwise_append.mp hpw
    have hlatest : latestVersionL vs = (vs.getLast hnil).Ver := by
      rw [latestVersionL, hlast]
    by_cases he : (vs.getLast hnil).Ver = v.Ver
    · have hnew : newVersionL vs v = vs.dropLast ++ [v] := by
        rw [newVersionL, hlast]
        simp [he]
      rw [hnew]
      constructor
      · apply List.pairwise_append.mpr
        refine ⟨hsplit.1, List.pairwise_singleton _ _, ?_⟩
        intro a ha b hb2
        rcases List.mem_singleton.mp hb2 with rfl
        have := hsplit.2.2 a ha (vs.getLast hnil) (List.mem_singleton_self _)
        omega
      · rw [latestVersionL, List.getLast?_concat]
    · have hlt : (vs.getLast hnil).Ver < v.Ver := by omega
      have hnew : newVersionL vs v = vs ++ [v] := by
        rw [newVersionL, hlast]
        simp [he]
      rw [hnew]
      constructor
      · apply List.pairwise_append.mpr
        refine ⟨hs, List.pairwise_singleton _ _, ?_⟩
        intro a ha b hb2
        rcases List.mem_singleton.mp hb2 with rfl
        rw [← hdecomp] at ha
        rcases List.mem_append.mp ha with hal | har
        · have := hsplit.2.2 a hal (vs.getLast hnil) (List.mem_singleton_self _)
          omega
        · rcases List.mem_singleton.mp har with rfl
          omega
      · rw [latestVersionL, List.getLast?_concat]

theorem applyLedgerOpSorted (n : TreeNode) (op : LedgerOp)
    (hs : n.Versions.Pairwise (fun a b => a.Ver < b.Ver))
    (hb : latestVersionL n.Versions ≤ op.version) :
    (applyLedgerOp n op).Versions.Pairwise (fun a b => a.Ver < b.Ver) ∧
    latestVersionL (applyLedgerOp n op).Versions = op.version := by
  cases op with
  | set h v =>
    simp only [applyLedgerOp, versions_set]
    exact newVersionSorted n.Versions ⟨v, h⟩ hs hb
  | setChildren c k v =>
    simp only [applyLedgerOp]
    obtain ⟨hh, heq⟩ := versions_setChildren n c k v
    rw [heq]
    exact newVersionSorted n.Versions ⟨v, hh⟩ hs hb

theorem foldOpsSorted (ops : List LedgerOp) (n : TreeNode)
    (hs : n.Versions.Pairwise (fun a b => a.Ver < b.Ver))
    (hchain : List.Chain' (· ≤ ·)
      (latestVersionL n.Versions :: ops.map LedgerOp.version)) :
    (ops.foldl applyLedgerOp n).Versions.Pairwise
      (fun a b => a.Ver < b.Ver) := by
  induction ops generalizing n with
  | nil => exact hs
  | cons op rest ih =>
    simp only [List.map_cons] at hchain
    have hstep := applyLedgerOpSorted n op hs
      (List.chain'_cons.mp hchain).1
    simp only [List.foldl_cons]
    apply ih (applyLedgerOp n op) hstep.1
    rw [hstep.2]
    exact (List.chain'_cons.mp hchain).2

/-- Claim C6: starting from an empty ledger, any sequence of `Set` and
`SetChildren` calls with non-decreasing versions leaves the ledger
strictly sorted by version (so with at most one entry per version
value), and a call whose version equals the current latest overwrites
the last entry in place instead of appending. -/
theorem C6_version_monotonic (start : TreeNode) (ops : List LedgerOp)
    (h0 : start.Versions = [])
    (hmono : List.Chain' (· ≤ ·) (ops.map LedgerOp.version)) :
    (ops.foldl applyLedgerOp start).Versions.Pairwise
      (fun a b => a.Ver < b.Ver) ∧
    (∀ (n : TreeNode) (h : Hsh) (v : Nat), n.Versions ≠ [] →
      latestVersionL n.Versions = v →
      (n.Set h v).Versions = n.Versions.dropLast ++ [⟨v, h⟩]) ∧
    (∀ (n : TreeNode) (c : Option TreeNode) (k v : Nat), n.Versions ≠ [] →
      latestVersionL n.Versions = v →
      ∃ hh, (n.SetChildren c k v).Versions =
        n.Versions.dropLast ++ [⟨v, hh⟩]) := by
  have hoverwrite : ∀ (vs : List VersionInfo) (x : VersionInfo),
      vs ≠ [] → latestVersionL vs = x.Ver →
      newVersionL vs x = vs.dropLast ++ [x] := by
    intro vs x hne hv
    have hlast := List.getLast?_eq_getLast vs hne
    rw [latestVersionL, hlast] at hv
    have hv2 : (vs.getLast hne).Ver = x.Ver := hv
    rw [newVersionL, hlast]
    simp [hv2]
  refine ⟨?_, ?_, ?_⟩
  · apply foldOpsSorted ops start (by rw [h0]; exact List.Pairwise.nil)
    rw [h0]
    apply List.chain'_cons'.mpr
    refine ⟨?_, hmono⟩
    intro y _
    exact Nat.zero_le y
  · intro n h v hne hv
    rw [versions_set]
    exact hoverwrite n.Versions ⟨v, h⟩ hne hv
  · intro n c k v hne hv
    obtain ⟨hh, heq⟩ := versions_setChildren n c k v
    exact ⟨hh, by rw [heq, hoverwrite n.Versions ⟨v, hh⟩ hne hv]⟩

theorem C6_version_monotonic_witness :
    (([LedgerOp.set (.leaf 1) 1, LedgerOp.set (.leaf 2) 2,
        LedgerOp.setChildren none 3 2].foldl applyLedgerOp
      (NewTreeNode 0 0)).Versions.Pairwise (fun a b => a.Ver < b.Ver)) ∧
    (((NewTreeNode 0 0).Set (.leaf 1) 1).Set (.leaf 2) 1).Versions =
      (((NewTreeNode 0 0).Set (.leaf 1) 1).Versions.dropLast ++
        [⟨1, .leaf 2⟩]) :=
  ⟨(C6_version_monotonic (NewTreeNode 0 0)
      [LedgerOp.set (.leaf 1) 1, LedgerOp.set (.leaf 2) 2,
        LedgerOp.setChildren none 3 2] rfl
      (by
        refine List.Chain.cons ?_ (List.Chain.cons ?_ List.Chain.nil) <;>
          simp [LedgerOp.version])).1,
    (C6_version_monotonic (NewTreeNode 0 0) [] rfl (by decide)).2.1
      ((NewTreeNode 0 0).Set (.leaf 1) 1) (.leaf 2) 1 (by decide)
      (by decide)⟩

theorem range8 : List.range 8 = [0, 1, 2, 3, 4, 5, 6, 7] := rfl

theorem extGetD14 (l1 l2 : List Hsh) (h1 : l1.length = 14)
    (h2 : l2.length = 14)
    (h : ∀ j, j < 14 → l1.getD j .nb = l2.getD j .nb) : l1 = l2 := by
  apply List.ext_getElem (by omega)
  intro j hj1 hj2
  have h3 := h j (by omega)
  rwa [List.getD_eq_getElem _ _ hj1, List.getD_eq_getElem _ _ hj2] at h3




theorem listLen16 {α : Type} (l : List α) (h : l.length = 16) :
    ∃ a0 a1 a2 a3 a4 a5 a6 a7 a8 a9 a10 a11 a12 a13 a14 a15,
      l = [a0, a1, a2, a3, a4, a5, a6, a7, a8, a9, a10, a11, a12, a13, a14, a15] := by
  rcases l with _ | ⟨a0, l⟩
  · simp only [List.length_nil, List.length_cons] at h
    omega
  rcases l with _ | ⟨a1, l⟩
  · simp only [List.length_nil, List.length_cons] at h
    omega
  rcases l with _ | ⟨a2, l⟩
  · simp only [List.length_nil, List.length_cons] at h
    omega
  rcases l with _ | ⟨a3, l⟩
  · simp only [List.length_nil, List.length_cons] at h
    omega
  rcases l with _ | ⟨a4, l⟩
  · simp only [List.length_nil, List.length_cons] at h
    omega
  rcases l with _ | ⟨a5, l⟩
  · simp only [List.length_nil, List.length_cons] at h
    omega
  rcases l with _ | ⟨a6, l⟩
  · simp only [List.length_nil, List.length_cons] at h
    omega
  rcases l with _ | ⟨a7, l⟩
  · simp only [List.length_nil, List.length_cons] at h
    omega
  rcases l with _ | ⟨a8, l⟩
  · simp only [List.length_nil, List.length_cons] at h
    omega
  rcases l with _ | ⟨a9, l⟩
  · simp only [List.length_nil, List.length_cons] at h
    omega
  rcases l with _ | ⟨a10, l⟩
  · simp only [List.length_nil, List.length_cons] at h
    omega
  rcases l with _ | ⟨a11, l⟩
  · simp only [List.length_nil, List.length_cons] at h
    omega
  rcases l with _ | ⟨a12, l⟩
  · simp only [List.length_nil, List.length_cons] at h
    omega
  rcases l with _ | ⟨a13, l⟩
  · simp only [List.length_nil, List.length_cons] at h
    omega
  rcases l with _ | ⟨a14, l⟩
  · simp only [List.length_nil, List.length_cons] at h
    omega
  rcases l with _ | ⟨a15, l⟩
  · simp only [List.length_nil, List.length_cons] at h
    omega
  rcases l with _ | ⟨a16, l⟩
  · exact ⟨a0, a1, a2, a3, a4, a5, a6, a7, a8, a9, a10, a11, a12, a13, a14, a15, rfl⟩
  · simp only [List.length_nil, List.length_cons] at h
    omega

theorem listLen14 {α : Type} (l : List α) (h : l.length = 14) :
    ∃ a0 a1 a2 a3 a4 a5 a6 a7 a8 a9 a10 a11 a12 a13,
      l = [a0, a1, a2, a3, a4, a5, a6, a7, a8, a9, a10, a11, a12, a13] := by
  rcases l with _ | ⟨a0, l⟩
  · simp only [List.length_nil, List.length_cons] at h
    omega
  rcases l with _ | ⟨a1, l⟩
  · simp only [List.length_nil, List.length_cons] at h
    omega
  rcases l with _ | ⟨a2, l⟩
  · simp only [List.length_nil, List.length_cons] at h
    omega
  rcases l with _ | ⟨a3, l⟩
  · simp only [List.length_nil, List.length_cons] at h
    omega
  rcases l with _ | ⟨a4, l⟩
  · simp only [List.length_nil, List.length_cons] at h
    omega
  rcases l with _ | ⟨a5, l⟩
  · simp only [List.length_nil, List.length_cons] at h
    omega
  rcases l with _ | ⟨a6, l⟩
  · simp only [List.length_nil, List.length_cons] at h
    omega
  rcases l with _ | ⟨a7, l⟩
  · simp only [List.length_nil, List.length_cons] at h
    omega
  rcases l with _ | ⟨a8, l⟩
  · simp only [List.length_nil, List.length_cons] at h
    omega
  rcases l with _ | ⟨a9, l⟩
  · simp only [List.length_nil, List.length_cons] at h
    omega
  rcases l with _ | ⟨a10, l⟩
  · simp only [List.length_nil, List.length_cons] at h
    omega
  rcases l with _ | ⟨a11, l⟩
  · simp only [List.length_nil, List.length_cons] at h
    omega
  rcases l with _ | ⟨a12, l⟩
  · simp only [List.length_nil, List.length_cons] at h
    omega
  rcases l with _ | ⟨a13, l⟩
  · simp only [List.length_nil, List.length_cons] at h
    omega
  rcases l with _ | ⟨a14, l⟩
  · exact ⟨a0, a1, a2, a3, a4, a5, a6, a7, a8, a9, a10, a11, a12, a13, rfl⟩
  · simp only [List.length_nil, List.length_cons] at h
    omega


/-- The values that a full `ComputeInternalHash` rebuild stores in the 14
internal slots, as one bottom-up pass over the 16 children (explicit
form of the two loops of the source). -/
def rebuildInternals (cs : List (Option TreeNode)) (nch : Hsh) : List Hsh :=
  let l6 := leafPairHash cs nch 0
  let l7 := leafPairHash cs nch 2
  let l8 := leafPairHash cs nch 4
  let l9 := leafPairHash cs nch 6
  let l10 := leafPairHash cs nch 8
  let l11 := leafPairHash cs nch 10
  let l12 := leafPairHash cs nch 12
  let l13 := leafPairHash cs nch 14
  let l5 := Hsh.comb l12 l13
  let l4 := Hsh.comb l10 l11
  let l3 := Hsh.comb l8 l9
  let l2 := Hsh.comb l6 l7
  let l1 := Hsh.comb l4 l5
  let l0 := Hsh.comb l2 l3
  [l0, l1, l2, l3, l4, l5, l6, l7, l8, l9, l10, l11, l12, l13]

set_option maxHeartbeats 4000000 in
/-- On any node with the full 14 internal slots, `ComputeInternalHash`
computes exactly `rebuildInternals` of its children. -/
theorem cihInternals (n : TreeNode) (hI : n.Internals.length = 14) :
    n.ComputeInternalHash.Internals =
      rebuildInternals n.Children n.nilChildHash := by
  rcases n with ⟨cs, I, vs, nh, nch, p, dp, tp, iv⟩
  simp only [internals_mk] at hI
  obtain ⟨i0, i1, i2, i3, i4, i5, i6, i7, i8, i9, i10, i11, i12, i13, rfl⟩ :=
    listLen14 I hI
  simp only [TreeNode.ComputeInternalHash, range8, List.foldl_cons,
    List.foldl_nil]
  rfl

/-- `SetChildren` on a node whose internal slots hold exactly the full
rebuild of its children updates them to exactly the full rebuild of the
children after the attach. -/
theorem scRebuild (n : TreeNode) (c : Option TreeNode) (k v : Nat)
    (hk : k < 16) (hC : n.Children.length = 16)
    (hreb : n.Internals = rebuildInternals n.Children n.nilChildHash) :
    (n.SetChildren c k v).Internals =
      rebuildInternals (n.Children.set k c) n.nilChildHash := by
  rcases n with ⟨cs, I, vs, nh, nch, p, dp, tp, iv⟩
  simp only [children_mk, internals_mk, nilChildHash_mk] at hC hreb ⊢
  obtain ⟨c0, c1, c2, c3, c4, c5, c6, c7, c8, c9, c10, c11, c12, c13, c14, c15, rfl⟩ := listLen16 cs hC
  rw [hreb]
  interval_cases k <;> rfl



theorem setChildrenVersionsEq (n : TreeNode) (c : Option TreeNode)
    (k v : Nat) :
    (n.SetChildren c k v).Versions = newVersionL n.Versions
      ⟨v, .comb ((n.SetChildren c k v).Internals.getD 0 .nb)
        ((n.SetChildren c k v).Internals.getD 1 .nb)⟩ := by
  rcases n with ⟨cs, I, vs, nh, nch, p, dp, tp, iv⟩
  rfl

theorem nilHashSetChildren (n : TreeNode) (c : Option TreeNode) (k v : Nat) :
    (n.SetChildren c k v).nilHash = n.nilHash := by
  rcases n with ⟨cs, I, vs, nh, nch, p, dp, tp, iv⟩
  rfl

theorem nilChildHashSetChildren (n : TreeNode) (c : Option TreeNode)
    (k v : Nat) :
    (n.SetChildren c k v).nilChildHash = n.nilChildHash := by
  rcases n with ⟨cs, I, vs, nh, nch, p, dp, tp, iv⟩
  rfl

theorem childrenSetChildren (n : TreeNode) (c : Option TreeNode) (k v : Nat) :
    (n.SetChildren c k v).Children = n.Children.set k c := by
  rcases n with ⟨cs, I, vs, nh, nch, p, dp, tp, iv⟩
  rfl

theorem newVersionLIdem (vs : List VersionInfo) (x : VersionInfo) :
    newVersionL (newVersionL vs x) x = newVersionL vs x := by
  have hlast := getLastNewVersionL vs x
  have hdrop : (newVersionL vs x).dropLast ++ [x] = newVersionL vs x := by
    unfold newVersionL
    match h : vs.getLast? with
    | none => simp
    | some lv =>
      by_cases he : lv.Ver = x.Ver <;> simp [he, List.dropLast_concat]
  conv_lhs => rw [newVersionL, hlast]
  simp [hdrop]

/-- Repeating `SetChildren` with the same child and nibble leaves the 14
internal slots unchanged. -/
theorem scIdemInternals (n : TreeNode) (c : Option TreeNode) (k v : Nat)
    (hk : k < 16) (hC : n.Children.length = 16)
    (hI : n.Internals.length = 14) :
    ((n.SetChildren c k v).SetChildren c k v).Internals =
      (n.SetChildren c k v).Internals := by
  rcases n with ⟨cs, I, vs, nh, nch, p, dp, tp, iv⟩
  simp only [children_mk, internals_mk] at hC hI
  obtain ⟨c0, c1, c2, c3, c4, c5, c6, c7, c8, c9, c10, c11, c12, c13, c14, c15, rfl⟩ := listLen16 cs hC
  obtain ⟨i0, i1, i2, i3, i4, i5, i6, i7, i8, i9, i10, i11, i12, i13, rfl⟩ :=
    listLen14 I hI
  interval_cases k <;> rfl

/-! General accessor lemmas for the field-update helpers. -/

@[simp] theorem Children_withChildren (n : TreeNode) (x) :
    (n.withChildren x).Children = x := by
  rcases n with ⟨c, i, v, nh, nch, p, d, t, iv⟩
  rfl

@[simp] theorem Internals_withChildren (n : TreeNode) (x) :
    (n.withChildren x).Internals = n.Internals := by
  rcases n with ⟨c, i, v, nh, nch, p, d, t, iv⟩
  rfl

@[simp] theorem Versions_withChildren (n : TreeNode) (x) :
    (n.withChildren x).Versions = n.Versions := by
  rcases n with ⟨c, i, v, nh, nch, p, d, t, iv⟩
  rfl

@[simp] theorem nilHash_withChildren (n : TreeNode) (x) :
    (n.withChildren x).nilHash = n.nilHash := by
  rcases n with ⟨c, i, v, nh, nch, p, d, t, iv⟩
  rfl

@[simp] theorem nilChildHash_withChildren (n : TreeNode) (x) :
    (n.withChildren x).nilChildHash = n.nilChildHash := by
  rcases n with ⟨c, i, v, nh, nch, p, d, t, iv⟩
  rfl

@[simp] theorem path_withChildren (n : TreeNode) (x) :
    (n.withChildren x).path = n.path := by
  rcases n with ⟨c, i, v, nh, nch, p, d, t, iv⟩
  rfl

@[simp] theorem depth_withChildren (n : TreeNode) (x) :
    (n.withChildren x).depth = n.depth := by
  rcases n with ⟨c, i, v, nh, nch, p, d, t, iv⟩
  rfl

@[simp] theorem temporary_withChildren (n : TreeNode) (x) :
    (n.withChildren x).temporary = n.temporary := by
  rcases n with ⟨c, i, v, nh, nch, p, d, t, iv⟩
  rfl

@[simp] theorem internalVer_withChildren (n : TreeNode) (x) :
    (n.withChildren x).internalVer = n.internalVer := by
  rcases n with ⟨c, i, v, nh, nch, p, d, t, iv⟩
  rfl

@[simp] theorem Children_withInternals (n : TreeNode) (x) :
    (n.withInternals x).Children = n.Children := by
  rcases n with ⟨c, i, v, nh, nch, p, d, t, iv⟩
  rfl

@[simp] theorem Internals_withInternals (n : TreeNode) (x) :
    (n.withInternals x).Internals = x := by
  rcases n with ⟨c, i, v, nh, nch, p, d, t, iv⟩
  rfl

@[simp] theorem Versions_withInternals (n : TreeNode) (x) :
    (n.withInternals x).Versions = n.Versions := by
  rcases n with ⟨c, i, v, nh, nch, p, d, t, iv⟩
  rfl

@[simp] theorem nilHash_withInternals (n : TreeNode) (x) :
    (n.withInternals x).nilHash = n.nilHash := by
  rcases n with ⟨c, i, v, nh, nch, p, d, t, iv⟩
  rfl

@[simp] theorem nilChildHash_withInternals (n : TreeNode) (x) :
    (n.withInternals x).nilChildHash = n.nilChildHash := by
  rcases n with ⟨c, i, v, nh, nch, p, d, t, iv⟩
  rfl

@[simp] theorem path_withInternals (n : TreeNode) (x) :
    (n.withInternals x).path = n.path := by
  rcases n with ⟨c, i, v, nh, nch, p, d, t, iv⟩
  rfl

@[simp] theorem depth_withInternals (n : TreeNode) (x) :
    (n.withInternals x).depth = n.depth := by
  rcases n with ⟨c, i, v, nh, nch, p, d, t, iv⟩
  rfl

@[simp] theorem temporary_withInternals (n : TreeNode) (x) :
    (n.withInternals x).temporary = n.temporary := by
  rcases n with ⟨c, i, v, nh, nch, p, d, t, iv⟩
  rfl

@[simp] theorem internalVer_withInternals (n : TreeNode) (x) :
    (n.withInternals x).internalVer = n.internalVer := by
  rcases n with ⟨c, i, v, nh, nch, p, d, t, iv⟩
  rfl

@[simp] theorem Children_withVersions (n : TreeNode) (x) :
    (n.withVersions x).Children = n.Children := by
  rcases n with ⟨c, i, v, nh, nch, p, d, t, iv⟩
  rfl

@[simp] theorem Internals_withVersions (n : TreeNode) (x) :
    (n.withVersions x).Internals = n.Internals := by
  rcases n with ⟨c, i, v, nh, nch, p, d, t, iv⟩
  rfl

@[simp] theorem Versions_withVersions (n : TreeNode) (x) :
    (n.withVersions x).Versions = x := by
  rcases n with ⟨c, i, v, nh, nch, p, d, t, iv⟩
  rfl

@[simp] theorem nilHash_withVersions (n : TreeNode) (x) :
    (n.withVersions x).nilHash = n.nilHash := by
  rcases n with ⟨c, i, v, nh, nch, p, d, t, iv⟩
  rfl

@[simp] theorem nilChildHash_withVersions (n : TreeNode) (x) :
    (n.withVersions x).nilChildHash = n.nilChildHash := by
  rcases n with ⟨c, i, v, nh, nch, p, d, t, iv⟩
  rfl

@[simp] theorem path_withVersions (n : TreeNode) (x) :
    (n.withVersions x).path = n.path := by
  rcases n with ⟨c, i, v, nh, nch, p, d, t, iv⟩
  rfl

@[simp] theorem depth_withVersions (n : TreeNode) (x) :
    (n.withVersions x).depth = n.depth := by
  rcases n with ⟨c, i, v, nh, nch, p, d, t, iv⟩
  rfl

@[simp] theorem temporary_withVersions (n : TreeNode) (x) :
    (n.withVersions x).temporary = n.temporary := by
  rcases n with ⟨c, i, v, nh, nch, p, d, t, iv⟩
  rfl

@[simp] theorem internalVer_withVersions (n : TreeNode) (x) :
    (n.withVersions x).internalVer = n.internalVer := by
  rcases n with ⟨c, i, v, nh, nch, p, d, t, iv⟩
  rfl

@[simp] theorem Children_withInternalVer (n : TreeNode) (x) :
    (n.withInternalVer x).Children = n.Children := by
  rcases n with ⟨c, i, v, nh, nch, p, d, t, iv⟩
  rfl

@[simp] theorem Internals_withInternalVer (n : TreeNode) (x) :
    (n.withInternalVer x).Internals = n.Internals := by
  rcases n with ⟨c, i, v, nh, nch, p, d, t, iv⟩
  rfl

@[simp] theorem Versions_withInternalVer (n : TreeNode) (x) :
    (n.withInternalVer x).Versions = n.Versions := by
  rcases n with ⟨c, i, v, nh, nch, p, d, t, iv⟩
  rfl

@[simp] theorem nilHash_withInternalVer (n : TreeNode) (x) :
    (n.withInternalVer x).nilHash = n.nilHash := by
  rcases n with ⟨c, i, v, nh, nch, p, d, t, iv⟩
  rfl

@[simp] theorem nilChildHash_withInternalVer (n : TreeNode) (x) :
    (n.withInternalVer x).nilChildHash = n.nilChildHash := by
  rcases n with ⟨c, i, v, nh, nch, p, d, t, iv⟩
  rfl

@[simp] theorem path_withInternalVer (n : TreeNode) (x) :
    (n.withInternalVer x).path = n.path := by
  rcases n with ⟨c, i, v, nh, nch, p, d, t, iv⟩
  rfl

@[simp] theorem depth_withInternalVer (n : TreeNode) (x) :
    (n.withInternalVer x).depth = n.depth := by
  rcases n with ⟨c, i, v, nh, nch, p, d, t, iv⟩
  rfl

@[simp] theorem temporary_withInternalVer (n : TreeNode) (x) :
    (n.withInternalVer x).temporary = n.temporary := by
  rcases n with ⟨c, i, v, nh, nch, p, d, t, iv⟩
  rfl

@[simp] theorem internalVer_withInternalVer (n : TreeNode) (x) :
    (n.withInternalVer x).internalVer = x := by
  rcases n with ⟨c, i, v, nh, nch, p, d, t, iv⟩
  rfl

/-! ## Claim C3: the cooperative recompute protocol -/

theorem setInternalNotNb (n : TreeNode) (i : Nat) (l r : Hsh) (v : Nat)
    (h : n.Internals.getD i .nb ≠ .nb) :
    n.setInternal i l r v = (n, n.Internals.getD i .nb, true) := by
  unfold TreeNode.setInternal
  rw [if_pos h]

theorem setInternalNb (n : TreeNode) (i : Nat) (l r : Hsh) (v : Nat)
    (h : n.Internals.getD i .nb = .nb) :
    n.setInternal i l r v =
      ((n.withInternals (n.Internals.set i (.comb l r))).withInternalVer
        (n.internalVer.set i v), .comb l r, false) := by
  unfold TreeNode.setInternal
  rw [if_neg (fun hc => hc h)]

theorem rcLevelNotNb (n : TreeNode) (nibble pfx version : Nat) (l r : Hsh)
    (h : n.Internals.getD (pfx + nibble / 2) .nb ≠ .nb) :
    rcLevel n nibble pfx version l r = (n, none) := by
  simp only [rcLevel]
  rw [setInternalNotNb n _ l r version h]
  rfl

theorem rcLevelSibNb (n : TreeNode) (nibble pfx version : Nat) (l r : Hsh)
    (h1 : n.Internals.getD (pfx + nibble / 2) .nb = .nb)
    (h2 : (n.Internals.set (pfx + nibble / 2) (.comb l r)).getD
      ((pfx + nibble / 2) ^^^ 1) .nb = .nb) :
    rcLevel n nibble pfx version l r =
      ((n.withInternals (n.Internals.set (pfx + nibble / 2)
        (.comb l r))).withInternalVer
        (n.internalVer.set (pfx + nibble / 2) version), none) := by
  simp only [List.getD, List.get?_eq_getElem?] at h2
  simp only [rcLevel]
  rw [setInternalNb n _ l r version h1]
  simp [TreeNode.getInternal, h2]

theorem rcLevelSibOk (n : TreeNode) (nibble pfx version : Nat) (l r : Hsh)
    (h1 : n.Internals.getD (pfx + nibble / 2) .nb = .nb)
    (h2 : (n.Internals.set (pfx + nibble / 2) (.comb l r)).getD
      ((pfx + nibble / 2) ^^^ 1) .nb ≠ .nb) :
    rcLevel n nibble pfx version l r =
      ((n.withInternals (n.Internals.set (pfx + nibble / 2)
        (.comb l r))).withInternalVer
        (n.internalVer.set (pfx + nibble / 2) version),
        some (nibble / 2,
          if nibble / 2 % 2 = 0 then Hsh.comb l r
            else (n.Internals.set (pfx + nibble / 2) (.comb l r)).getD
              ((pfx + nibble / 2) ^^^ 1) .nb,
          if nibble / 2 % 2 = 0 then
            (n.Internals.set (pfx + nibble / 2) (.comb l r)).getD
              ((pfx + nibble / 2) ^^^ 1) .nb
            else Hsh.comb l r)) := by
  simp only [List.getD, List.get?_eq_getElem?] at h2
  simp only [rcLevel]
  rw [setInternalNb n _ l r version h1]
  simp [TreeNode.getInternal, h2]
  by_cases hp : nibble / 2 % 2 = 0 <;> simp [hp]

theorem rcIdxFacts : ∀ m, m < 16 →
    (6 + m / 2) ^^^ 1 ≠ 6 + m / 2 ∧
    2 + m / 4 ≠ 6 + m / 2 ∧
    (2 + m / 4) ^^^ 1 ≠ 6 + m / 2 ∧
    (2 + m / 4) ^^^ 1 ≠ 2 + m / 4 ∧
    m / 8 ≠ 6 + m / 2 ∧
    m / 8 ≠ 2 + m / 4 ∧
    (m / 8) ^^^ 1 ≠ 6 + m / 2 ∧
    (m / 8) ^^^ 1 ≠ 2 + m / 4 ∧
    (m / 8) ^^^ 1 ≠ m / 8 := by decide

/-- Readiness of the three-level ascent, in terms of the internal slots
as they are when the chain starts: the three path slots are still nil
and their sibling slots are already computed. -/
def rcChainReady (node : TreeNode) (m version : Nat) : Prop :=
  node.getInternal (6 + m / 2) version = .nb ∧
  node.getInternal ((6 + m / 2) ^^^ 1) version ≠ .nb ∧
  node.getInternal (2 + m / 4) version = .nb ∧
  node.getInternal ((2 + m / 4) ^^^ 1) version ≠ .nb ∧
  node.getInternal (m / 8) version = .nb ∧
  node.getInternal ((m / 8) ^^^ 1) version ≠ .nb

theorem rcChainChar (node : TreeNode) (m version : Nat) (hm : m < 16)
    (l0 r0 : Hsh) :
    ((rcChain node m version l0 r0).2 = true ↔
      rcChainReady node m version) ∧
    ((rcChain node m version l0 r0).2 = false →
      (rcChain node m version l0 r0).1.Versions = node.Versions) ∧
    ((rcChain node m version l0 r0).2 = true →
      (rcChain node m version l0 r0).1.Versions =
        newVersionL node.Versions ⟨version,
          .comb ((rcChain node m version l0 r0).1.Internals.getD 0 .nb)
            ((rcChain node m version l0 r0).1.Internals.getD 1 .nb)⟩) ∧
    (node.Internals.length = 14 →
      (rcChain node m version l0 r0).2 = true →
      (rcChain node m version l0 r0).1.Internals.getD (6 + m / 2) .nb =
        .comb l0 r0) := by
  obtain ⟨f1, f2, f3, f4, f5, f6, f7, f8, f9⟩ := rcIdxFacts m hm
  have hd24 : m / 2 / 2 = m / 4 := by omega
  have hd48 : m / 4 / 2 = m / 8 := by omega
  rcases node with ⟨cs, I, vs, nh, nch, p, dp, tp, iv⟩
  simp only [TreeNode.getInternal, internals_mk, versions_mk, rcChainReady]
  by_cases h1 : I.getD (6 + m / 2) .nb = .nb
  case neg =>
    unfold rcChain
    rw [rcLevelNotNb (TreeNode.mk cs I vs nh nch p dp tp iv) m 6 version l0 r0 h1]
    exact ⟨⟨fun h => absurd h Bool.false_ne_true, fun hr => absurd hr.1 h1⟩,
      fun _ => rfl, fun h => absurd h Bool.false_ne_true,
      fun _ h => absurd h Bool.false_ne_true⟩
  case pos =>
  by_cases h2 : I.getD ((6 + m / 2) ^^^ 1) .nb = .nb
  case pos =>
    have h2a : (I.set (6 + m / 2) (Hsh.comb l0 r0)).getD
        ((6 + m / 2) ^^^ 1) .nb = .nb := by
      rw [getDSetNe _ _ _ _ _ (Ne.symm f1)]
      exact h2
    unfold rcChain
    rw [rcLevelSibNb (TreeNode.mk cs I vs nh nch p dp tp iv) m 6 version l0 r0 h1 h2a]
    exact ⟨⟨fun h => absurd h Bool.false_ne_true,
        fun hr => absurd h2 hr.2.1⟩,
      fun _ => rfl, fun h => absurd h Bool.false_ne_true,
      fun _ h => absurd h Bool.false_ne_true⟩
  case neg =>
  have h2a : (I.set (6 + m / 2) (Hsh.comb l0 r0)).getD
      ((6 + m / 2) ^^^ 1) .nb ≠ .nb := by
    rw [getDSetNe _ _ _ _ _ (Ne.symm f1)]
    exact h2
  unfold rcChain
  rw [rcLevelSibOk (TreeNode.mk cs I vs nh nch p dp tp iv) m 6 version l0 r0 h1 h2a]
  simp only [withInternals_mk, withInternalVer_mk, internals_mk, internalVer_mk]
  by_cases h3 : I.getD (2 + m / 4) .nb = .nb
  case neg =>
    rw [rcLevelNotNb (TreeNode.mk cs (I.set (6 + m / 2) (Hsh.comb l0 r0)) vs
        nh nch p dp tp (iv.set (6 + m / 2) version)) (m / 2) 2 version _ _
      (by
        simp only [internals_mk]
        rw [hd24, getDSetNe _ _ _ _ _ (Ne.symm f2)]
        exact h3)]
    exact ⟨⟨fun h => absurd h Bool.false_ne_true,
        fun hr => absurd hr.2.2.1 h3⟩,
      fun _ => rfl, fun h => absurd h Bool.false_ne_true,
      fun _ h => absurd h Bool.false_ne_true⟩
  case pos =>
  by_cases h4 : I.getD ((2 + m / 4) ^^^ 1) .nb = .nb
  case pos =>
    rw [rcLevelSibNb (TreeNode.mk cs (I.set (6 + m / 2) (Hsh.comb l0 r0)) vs
        nh nch p dp tp (iv.set (6 + m / 2) version)) (m / 2) 2 version _ _
      (by
        simp only [internals_mk]
        rw [hd24, getDSetNe _ _ _ _ _ (Ne.symm f2)]
        exact h3)
      (by
        simp only [internals_mk]
        rw [hd24, getDSetNe _ _ _ _ _ (Ne.symm f4),
          getDSetNe _ _ _ _ _ (Ne.symm f3)]
        exact h4)]
    exact ⟨⟨fun h => absurd h Bool.false_ne_true,
        fun hr => absurd h4 hr.2.2.2.1⟩,
      fun _ => rfl, fun h => absurd h Bool.false_ne_true,
      fun _ h => absurd h Bool.false_ne_true⟩
  case neg =>
  rw [rcLevelSibOk (TreeNode.mk cs (I.set (6 + m / 2) (Hsh.comb l0 r0)) vs
      nh nch p dp tp (iv.set (6 + m / 2) version)) (m / 2) 2 version _ _
    (by
      simp only [internals_mk]
      rw [hd24, getDSetNe _ _ _ _ _ (Ne.symm f2)]
      exact h3)
    (by
      simp only [internals_mk]
      rw [hd24, getDSetNe _ _ _ _ _ (Ne.symm f4),
        getDSetNe _ _ _ _ _ (Ne.symm f3)]
      exact h4)]
  simp only [withInternals_mk, withInternalVer_mk, internals_mk, internalVer_mk]
  by_cases h5 : I.getD (m / 8) .nb = .nb
  case neg =>
    rw [rcLevelNotNb _ (m / 2 / 2) 0 version _ _
      (by
        simp only [internals_mk]
        rw [hd24, hd48, Nat.zero_add, getDSetNe _ _ _ _ _ (Ne.symm f6),
          getDSetNe _ _ _ _ _ (Ne.symm f5)]
        exact h5)]
    exact ⟨⟨fun h => absurd h Bool.false_ne_true,
        fun hr => absurd hr.2.2.2.2.1 h5⟩,
      fun _ => rfl, fun h => absurd h Bool.false_ne_true,
      fun _ h => absurd h Bool.false_ne_true⟩
  case pos =>
  by_cases h6 : I.getD ((m / 8) ^^^ 1) .nb = .nb
  case pos =>
    rw [rcLevelSibNb _ (m / 2 / 2) 0 version _ _
      (by
        simp only [internals_mk]
        rw [hd24, hd48, Nat.zero_add, getDSetNe _ _ _ _ _ (Ne.symm f6),
          getDSetNe _ _ _ _ _ (Ne.symm f5)]
        exact h5)
      (by
        simp only [internals_mk]
        rw [hd24, hd48, Nat.zero_add, getDSetNe _ _ _ _ _ (Ne.symm f9),
          getDSetNe _ _ _ _ _ (Ne.symm f8),
          getDSetNe _ _ _ _ _ (Ne.symm f7)]
        exact h6)]
    exact ⟨⟨fun h => absurd h Bool.false_ne_true,
        fun hr => absurd h6 hr.2.2.2.2.2⟩,
      fun _ => rfl, fun h => absurd h Bool.false_ne_true,
      fun _ h => absurd h Bool.false_ne_true⟩
  case neg =>
  rw [rcLevelSibOk _ (m / 2 / 2) 0 version _ _
    (by
      simp only [internals_mk]
      rw [hd24, hd48, Nat.zero_add, getDSetNe _ _ _ _ _ (Ne.symm f6),
        getDSetNe _ _ _ _ _ (Ne.symm f5)]
      exact h5)
    (by
      simp only [internals_mk]
      rw [hd24, hd48, Nat.zero_add, getDSetNe _ _ _ _ _ (Ne.symm f9),
        getDSetNe _ _ _ _ _ (Ne.symm f8),
        getDSetNe _ _ _ _ _ (Ne.symm f7)]
      exact h6)]
  refine ⟨⟨fun _ => ⟨h1, h2, h3, h4, h5, h6⟩, fun _ => rfl⟩,
    fun h => Bool.noConfusion h, fun _ => rfl, ?_⟩
  intro hlen _
  simp only [withVersions_mk, withInternals_mk, withInternalVer_mk, internals_mk, internalVer_mk]
  rw [hd24, hd48, Nat.zero_add, getDSetNe _ _ _ _ _ f5,
    getDSetNe _ _ _ _ _ f2, getDSetSelf]
  omega

/-- Readiness of a full `recompute` call: the journal-tracked sibling (if
any) has caught up to the target version, and the three-level ascent is
ready on the node's internal slots. -/
def recomputeReady (node child : TreeNode)
    (journals : List (journalKey × TreeNode)) (version : Nat) : Prop :=
  (match journalGet journals ⟨child.depth, child.path ^^^ 1⟩ with
   | some s => ¬ s.latestVersion < version
   | none => True) ∧
  rcChainReady node (child.path % 16) version

theorem recomputeChar (node child : TreeNode)
    (journals : List (journalKey × TreeNode)) (version : Nat) :
    ((TreeNode.recompute node child journals version).2 = true ↔
      recomputeReady node child journals version) ∧
    ((TreeNode.recompute node child journals version).2 = false →
      (TreeNode.recompute node child journals version).1.Versions =
        node.Versions) ∧
    ((TreeNode.recompute node child journals version).2 = true →
      (TreeNode.recompute node child journals version).1.Versions =
        newVersionL node.Versions ⟨version,
          .comb ((TreeNode.recompute node child journals
              version).1.Internals.getD 0 .nb)
            ((TreeNode.recompute node child journals
              version).1.Internals.getD 1 .nb)⟩) := by
  have hm : child.path % 16 < 16 := Nat.mod_lt _ (by omega)
  unfold TreeNode.recompute recomputeReady
  rcases hsib : journalGet journals ⟨child.depth, child.path ^^^ 1⟩ with _ | s
  · simp only [hsib]
    rcases Nat.mod_two_eq_zero_or_one (child.path % 16) with hp | hp
    · rw [if_pos hp]
      refine ⟨?_,
        (rcChainChar node (child.path % 16) version hm child.Root
          node.nilChildHash).2.1,
        (rcChainChar node (child.path % 16) version hm child.Root
          node.nilChildHash).2.2.1⟩
      constructor
      · intro h
        exact ⟨trivial, ((rcChainChar node (child.path % 16) version hm
          child.Root node.nilChildHash).1).mp h⟩
      · intro h
        exact ((rcChainChar node (child.path % 16) version hm child.Root
          node.nilChildHash).1).mpr h.2
    · rw [if_neg (by omega)]
      refine ⟨?_,
        (rcChainChar node (child.path % 16) version hm node.nilChildHash
          child.Root).2.1,
        (rcChainChar node (child.path % 16) version hm node.nilChildHash
          child.Root).2.2.1⟩
      constructor
      · intro h
        exact ⟨trivial, ((rcChainChar node (child.path % 16) version hm
          node.nilChildHash child.Root).1).mp h⟩
      · intro h
        exact ((rcChainChar node (child.path % 16) version hm
          node.nilChildHash child.Root).1).mpr h.2
  · simp only [hsib]
    by_cases hstale : s.latestVersion < version
    · rw [if_pos hstale]
      refine ⟨?_, fun _ => rfl, fun h => absurd h Bool.false_ne_true⟩
      constructor
      · intro h
        exact absurd h Bool.false_ne_true
      · intro h
        exact absurd hstale h.1
    · rw [if_neg hstale]
      rcases Nat.mod_two_eq_zero_or_one (child.path % 16) with hp | hp
      · rw [if_pos hp]
        refine ⟨?_,
          (rcChainChar node (child.path % 16) version hm child.Root
            s.Root).2.1,
          (rcChainChar node (child.path % 16) version hm child.Root
            s.Root).2.2.1⟩
        constructor
        · intro h
          exact ⟨hstale, ((rcChainChar node (child.path % 16) version hm
            child.Root s.Root).1).mp h⟩
        · intro h
          exact ((rcChainChar node (child.path % 16) version hm child.Root
            s.Root).1).mpr h.2
      · rw [if_neg (by omega)]
        refine ⟨?_,
          (rcChainChar node (child.path % 16) version hm s.Root
            child.Root).2.1,
          (rcChainChar node (child.path % 16) version hm s.Root
            child.Root).2.2.1⟩
        constructor
        · intro h
          exact ⟨hstale, ((rcChainChar node (child.path % 16) version hm
            s.Root child.Root).1).mp h⟩
        · intro h
          exact ((rcChainChar node (child.path % 16) version hm s.Root
            child.Root).1).mpr h.2

/-- Claim C3: `recompute(child, journals, version)` mints a new root
version and returns `true` iff every level succeeds: the journal-tracked
sibling (when present) has caught up to `version`, each target internal
slot is still nil (not already completed by a racing caller), and each
required sibling internal slot reads non-nil.  On any failure the version
ledger is returned unchanged; on success the ledger gains the minted
entry.  A sibling absent from the journal does not block progress: success
then depends only on the internal-slot readiness. -/
theorem C3_recompute_protocol (node child : TreeNode)
    (journals : List (journalKey × TreeNode)) (version : Nat) :
    ((TreeNode.recompute node child journals version).2 = true ↔
      recomputeReady node child journals version) ∧
    ((TreeNode.recompute node child journals version).2 = false →
      (TreeNode.recompute node child journals version).1.Versions =
        node.Versions) ∧
    ((TreeNode.recompute node child journals version).2 = true →
      (TreeNode.recompute node child journals version).1.Versions =
        newVersionL node.Versions ⟨version,
          .comb ((TreeNode.recompute node child journals
              version).1.Internals.getD 0 .nb)
            ((TreeNode.recompute node child journals
              version).1.Internals.getD 1 .nb)⟩) ∧
    (journalGet journals ⟨child.depth, child.path ^^^ 1⟩ = none →
      ((TreeNode.recompute node child journals version).2 = true ↔
        rcChainReady node (child.path % 16) version)) := by
  refine ⟨(recomputeChar node child journals version).1,
    (recomputeChar node child journals version).2.1,
    (recomputeChar node child journals version).2.2, ?_⟩
  intro hnone
  rw [(recomputeChar node child journals version).1]
  unfold recomputeReady
  rw [hnone]
  simp

theorem C3_recompute_protocol_witness :
    (TreeNode.recompute ((NewTreeNode 0 0).mark 0)
      ((NewTreeNode 4 0).Set (.leaf 9) 1) [] 1).1.Versions =
      newVersionL ((NewTreeNode 0 0).mark 0).Versions ⟨1,
        .comb ((TreeNode.recompute ((NewTreeNode 0 0).mark 0)
            ((NewTreeNode 4 0).Set (.leaf 9) 1) [] 1).1.Internals.getD 0 .nb)
          ((TreeNode.recompute ((NewTreeNode 0 0).mark 0)
            ((NewTreeNode 4 0).Set (.leaf 9) 1) [] 1).1.Internals.getD 1
            .nb)⟩ :=
  (C3_recompute_protocol ((NewTreeNode 0 0).mark 0)
    ((NewTreeNode 4 0).Set (.leaf 9) 1) [] 1).2.2.1 (by decide)

/-- Claim C1 counterexample: `computeInternal` given a nil nibble map
returns immediately without minting, so right after it returns the latest
ledger entry of a node written by `Set` still carries the leaf hash, not
the combination of the top two internal slots. -/
theorem C1_mint_counterexample :
    ((((NewTreeNode 0 0).Set (.leaf 7) 1).computeInternal
        none).Versions.getLast?.map VersionInfo.Hash) = some (.leaf 7) ∧
    some (Hsh.leaf 7) ≠ some (Hsh.comb
      ((((NewTreeNode 0 0).Set (.leaf 7) 1).computeInternal
        none).Internals.getD 0 .nb)
      ((((NewTreeNode 0 0).Set (.leaf 7) 1).computeInternal
        none).Internals.getD 1 .nb)) := by decide

/-- Claim C1 (amended): immediately after `SetChildren` returns, after a
`computeInternal` call that was actually given a nibble map (the nil-map
early return leaves the node untouched and mints nothing), and after a
`recompute` call that returns `true`, the node's latest version ledger
entry has a hash equal to the combination of internal slots 0 and 1. -/
theorem C1_mint_amended (n child : TreeNode) (c : Option TreeNode)
    (k v : Nat) (ns : List Nat) (journals : List (journalKey × TreeNode)) :
    ((n.SetChildren c k v).Versions.getLast?.map VersionInfo.Hash =
      some (.comb ((n.SetChildren c k v).Internals.getD 0 .nb)
        ((n.SetChildren c k v).Internals.getD 1 .nb))) ∧
    ((n.computeInternal (some ns)).Versions.getLast?.map VersionInfo.Hash =
      some (.comb ((n.computeInternal (some ns)).Internals.getD 0 .nb)
        ((n.computeInternal (some ns)).Internals.getD 1 .nb))) ∧
    ((TreeNode.recompute n child journals v).2 = true →
      (TreeNode.recompute n child journals v).1.Versions.getLast?.map
          VersionInfo.Hash =
        some (.comb ((TreeNode.recompute n child journals
            v).1.Internals.getD 0 .nb)
          ((TreeNode.recompute n child journals v).1.Internals.getD 1
            .nb))) ∧
    (n.computeInternal none = n) := by
  refine ⟨?_, ?_, ?_, rfl⟩
  · simp only [TreeNode.SetChildren, Versions_withVersions,
      Internals_withVersions, Internals_withInternals, getLastNewVersionL,
      Option.map_some']
  · simp only [TreeNode.computeInternal, Versions_withVersions,
      Internals_withVersions, Internals_withInternals, getLastNewVersionL,
      Option.map_some']
  · intro h
    rw [(recomputeChar n child journals v).2.2 h, getLastNewVersionL]
    rfl

theorem C1_mint_amended_witness :
    (TreeNode.recompute ((NewTreeNode 0 0).mark 1)
      ((NewTreeNode 4 1).Set (.leaf 5) 2) [] 2).1.Versions.getLast?.map
        VersionInfo.Hash =
      some (.comb ((TreeNode.recompute ((NewTreeNode 0 0).mark 1)
          ((NewTreeNode 4 1).Set (.leaf 5) 2) [] 2).1.Internals.getD 0 .nb)
        ((TreeNode.recompute ((NewTreeNode 0 0).mark 1)
          ((NewTreeNode 4 1).Set (.leaf 5) 2) [] 2).1.Internals.getD 1
          .nb)) :=
  (C1_mint_amended ((NewTreeNode 0 0).mark 1)
    ((NewTreeNode 4 1).Set (.leaf 5) 2) none 0 2 [] []).2.2.1 (by decide)

/-- Claim C2: on a node whose internal slots agree with a full rebuild
from its current children, `SetChildren(child, nibble, version)` leaves
every internal slot equal to what `ComputeInternalHash` would produce
after attaching that child, and mints as its root hash exactly the
combination of the top two rebuilt slots — the same root a from-scratch
recomputation would give. -/
theorem C2_setchildren_matches_rebuild (n : TreeNode) (c : Option TreeNode)
    (k v : Nat) (hk : k < 16) (hC : n.Children.length = 16)
    (hI : n.Internals.length = 14)
    (hreb : n.Internals = rebuildInternals n.Children n.nilChildHash) :
    (n.SetChildren c k v).Internals =
      ((n.withChildren (n.Children.set k c)).ComputeInternalHash).Internals ∧
    (n.SetChildren c k v).Versions.getLast?.map VersionInfo.Hash =
      some (.comb
        (((n.withChildren
          (n.Children.set k c)).ComputeInternalHash).Internals.getD 0 .nb)
        (((n.withChildren
          (n.Children.set k c)).ComputeInternalHash).Internals.getD 1
          .nb)) := by
  have h2 : ((n.withChildren (n.Children.set k c)).ComputeInternalHash).Internals =
      rebuildInternals (n.Children.set k c) n.nilChildHash := by
    rw [cihInternals (n.withChildren (n.Children.set k c))
      (by rw [Internals_withChildren]; exact hI)]
    rw [Children_withChildren, nilChildHash_withChildren]
  have h1 : (n.SetChildren c k v).Internals =
      ((n.withChildren (n.Children.set k c)).ComputeInternalHash).Internals :=
    (scRebuild n c k v hk hC hreb).trans h2.symm
  refine ⟨h1, ?_⟩
  rw [setChildrenVersionsEq n c k v, getLastNewVersionL, Option.map_some']
  rw [h1]

theorem C2_setchildren_matches_rebuild_witness :
    ((((NewTreeNode 0 0).ComputeInternalHash).SetChildren
        (some ((NewTreeNode 4 5).Set (.leaf 11) 3)) 5 3).Internals =
      (((((NewTreeNode 0 0).ComputeInternalHash).withChildren
        (((NewTreeNode 0 0).ComputeInternalHash).Children.set 5
          (some ((NewTreeNode 4 5).Set (.leaf 11)
            3)))).ComputeInternalHash).Internals)) :=
  (C2_setchildren_matches_rebuild ((NewTreeNode 0 0).ComputeInternalHash)
    (some ((NewTreeNode 4 5).Set (.leaf 11) 3)) 5 3 (by decide) (by decide)
    (by decide) (by decide)).1

theorem newVersionLFresh (vs : List VersionInfo) (x : VersionInfo)
    (h : ∀ y ∈ vs, y.Ver ≠ x.Ver) :
    newVersionL vs x = vs ++ [x] := by
  unfold newVersionL
  match hl : vs.getLast? with
  | none =>
    have hnil : vs = [] := by
      cases vs with
      | nil => rfl
      | cons a l => simp [List.getLast?_cons] at hl
    subst hnil
    rfl
  | some lv =>
    have hne : vs ≠ [] := by
      intro hx
      subst hx
      simp at hl
    have h2 := List.getLast?_eq_getLast_of_ne_nil hne
    have h3 : lv = vs.getLast hne := Option.some.inj (hl.symm.trans h2)
    have hmem : lv ∈ vs := h3 ▸ List.getLast_mem hne
    simp only [hl]
    rw [if_neg (h lv hmem)]

theorem newVersionLSameLast (vs : List VersionInfo) (x1 x2 : VersionInfo)
    (h : x1.Ver = x2.Ver) :
    newVersionL (vs ++ [x1]) x2 = vs ++ [x2] := by
  unfold newVersionL
  simp only [List.getLast?_concat]
  rw [if_pos h, List.dropLast_concat]

/-- Claim C7: calling `SetChildren` twice with the same child, nibble and
version yields the same version ledger and the same root hash as calling
it once; and two `SetChildren` calls with the same version (here at
nibbles `a` and `b`) leave exactly one ledger entry for that version,
whose hash combines the top two internal slots rebuilt from both child
updates. -/
theorem C7_setchildren_idem_overwrite (n : TreeNode)
    (c c1 c2 : Option TreeNode) (k a b v : Nat) (hk : k < 16) (ha : a < 16)
    (hb : b < 16) (hC : n.Children.length = 16)
    (hI : n.Internals.length = 14)
    (hreb : n.Internals = rebuildInternals n.Children n.nilChildHash)
    (hv : ∀ y ∈ n.Versions, y.Ver ≠ v) :
    (((n.SetChildren c k v).SetChildren c k v).Versions =
      (n.SetChildren c k v).Versions) ∧
    (((n.SetChildren c k v).SetChildren c k v).Root =
      (n.SetChildren c k v).Root) ∧
    (((n.SetChildren c1 a v).SetChildren c2 b v).Versions =
      n.Versions ++ [⟨v, .comb
        ((rebuildInternals ((n.Children.set a c1).set b c2)
          n.nilChildHash).getD 0 .nb)
        ((rebuildInternals ((n.Children.set a c1).set b c2)
          n.nilChildHash).getD 1 .nb)⟩]) ∧
    ((((n.SetChildren c1 a v).SetChildren c2 b v).Versions.filter
      (fun y => decide (y.Ver = v))).length = 1) := by
  have hBV := setChildrenVersionsEq (n.SetChildren c k v) c k v
  rw [scIdemInternals n c k v hk hC hI] at hBV
  have hAV := setChildrenVersionsEq n c k v
  have hv1 : ((n.SetChildren c k v).SetChildren c k v).Versions =
      (n.SetChildren c k v).Versions := by
    rw [hBV, hAV, newVersionLIdem]
  have hroot : ((n.SetChildren c k v).SetChildren c k v).Root =
      (n.SetChildren c k v).Root := by
    simp only [TreeNode.Root, hv1, nilHashSetChildren]
  have hA1I := scRebuild n c1 a v ha hC hreb
  have hA1C := childrenSetChildren n c1 a v
  have hA1N := nilChildHashSetChildren n c1 a v
  have hB2I : ((n.SetChildren c1 a v).SetChildren c2 b v).Internals =
      rebuildInternals ((n.Children.set a c1).set b c2) n.nilChildHash := by
    rw [scRebuild (n.SetChildren c1 a v) c2 b v hb
        (by rw [hA1C, List.length_set]; exact hC)
        (by rw [hA1I, hA1C, hA1N]),
      hA1C, hA1N]
  have hB2V := setChildrenVersionsEq (n.SetChildren c1 a v) c2 b v
  rw [hB2I] at hB2V
  have hA1V := setChildrenVersionsEq n c1 a v
  have hc3 : ((n.SetChildren c1 a v).SetChildren c2 b v).Versions =
      n.Versions ++ [⟨v, .comb
        ((rebuildInternals ((n.Children.set a c1).set b c2)
          n.nilChildHash).getD 0 .nb)
        ((rebuildInternals ((n.Children.set a c1).set b c2)
          n.nilChildHash).getD 1 .nb)⟩] := by
    rw [hB2V, hA1V, newVersionLFresh n.Versions _ (fun y hy => hv y hy)]
    exact newVersionLSameLast n.Versions _ _ rfl
  refine ⟨hv1, hroot, hc3, ?_⟩
  rw [hc3, List.filter_append]
  have h0 : n.Versions.filter (fun y => decide (y.Ver = v)) = [] := by
    rw [List.filter_eq_nil]
    intro y hy
    simp [hv y hy]
  rw [h0]
  simp

theorem C7_setchildren_idem_overwrite_witness :
    ((((NewTreeNode 0 0).ComputeInternalHash).SetChildren
        (some ((NewTreeNode 4 2).Set (.leaf 8) 5)) 2 5).SetChildren
        (some ((NewTreeNode 4 2).Set (.leaf 8) 5)) 2 5).Versions =
      (((NewTreeNode 0 0).ComputeInternalHash).SetChildren
        (some ((NewTreeNode 4 2).Set (.leaf 8) 5)) 2 5).Versions :=
  (C7_setchildren_idem_overwrite ((NewTreeNode 0 0).ComputeInternalHash)
    (some ((NewTreeNode 4 2).Set (.leaf 8) 5))
    (some ((NewTreeNode 4 3).Set (.leaf 8) 5))
    (some ((NewTreeNode 4 12).Set (.leaf 9) 5)) 2 3 12 5 (by decide)
    (by decide) (by decide) (by decide) (by decide) (by decide)
    (by decide)).1

/-- Claim C8 counterexample: a non-nil child whose ledger is empty does
not survive the storage round trip — `ToTreeNode` reconstructs only
children with a nonempty persisted ledger, so the claim's "for each
non-nil child" is too strong. -/
theorem C8_roundtrip_counterexample :
    ((((NewTreeNode 0 0).SetChildren (some (NewTreeNode 4 0)) 0
      1).Children.getD 0 none).isSome = true) ∧
    (((((NewTreeNode 0 0).SetChildren (some (NewTreeNode 4 0)) 0
        1).ToStorageTreeNode).ToTreeNode
      ((NewTreeNode 0 0).SetChildren (some (NewTreeNode 4 0)) 0
        1).depth).Children.getD 0 none).isSome = false := by decide

/-- Claim C8 (amended): `ToStorageTreeNode` followed by `ToTreeNode` at a
depth reconstructs a node with the same path, the same internal slots and
the same own ledger; each non-nil child **with a nonempty ledger** comes
back as a `temporary` child carrying that ledger exactly and no live
substructure, while non-nil children with empty ledgers come back
absent. -/
theorem C8_roundtrip_amended (n : TreeNode) (d : Nat) :
    ((n.ToStorageTreeNode).ToTreeNode d).path = n.path ∧
    ((n.ToStorageTreeNode).ToTreeNode d).Internals = n.Internals ∧
    ((n.ToStorageTreeNode).ToTreeNode d).Versions = n.Versions ∧
    ((n.ToStorageTreeNode).ToTreeNode d).Children = n.Children.map
      (fun o =>
        match o with
        | some c =>
          if 0 < c.Versions.length then
            some (mkTemporaryChild c.Versions d)
          else none
        | none => none) ∧
    (∀ (i : Nat) (c : TreeNode),
      ((n.ToStorageTreeNode).ToTreeNode d).Children.getD i none = some c →
      c.temporary = true ∧ c.Children = List.replicate 16 none ∧
      c.Internals = List.replicate 14 .nb) := by
  have h4 : ((n.ToStorageTreeNode).ToTreeNode d).Children = n.Children.map
      (fun o =>
        match o with
        | some c =>
          if 0 < c.Versions.length then
            some (mkTemporaryChild c.Versions d)
          else none
        | none => none) := by
    simp only [StorageTreeNode.ToTreeNode, TreeNode.ToStorageTreeNode,
      children_mk, List.map_map]
    refine List.map_congr_left fun o _ => ?_
    rcases o with _ | c0
    · rfl
    · rfl
  refine ⟨rfl, rfl, rfl, h4, ?_⟩
  intro i c hc
  rw [h4] at hc
  simp only [List.getD, List.get?_eq_getElem?, List.getElem?_map] at hc
  rcases hx : n.Children[i]? with _ | o
  · rw [hx] at hc
    simp at hc
  · rw [hx] at hc
    rcases o with _ | c0
    · simp at hc
    · simp only [Option.map_some', Option.getD_some] at hc
      by_cases hlen : 0 < c0.Versions.length
      · rw [if_pos hlen] at hc
        have hceq := Option.some.inj hc
        subst hceq
        exact ⟨rfl, rfl, rfl⟩
      · rw [if_neg hlen] at hc
        exact absurd hc (by simp)

theorem C8_roundtrip_amended_witness :
    (mkTemporaryChild [⟨3, .leaf 2⟩] 0).temporary = true ∧
    (mkTemporaryChild [⟨3, .leaf 2⟩] 0).Children = List.replicate 16 none ∧
    (mkTemporaryChild [⟨3, .leaf 2⟩] 0).Internals =
      List.replicate 14 .nb :=
  (C8_roundtrip_amended ((NewTreeNode 0 0).SetChildren
    (some ((NewTreeNode 4 1).Set (.leaf 2) 3)) 1 3) 0).2.2.2.2 1
    (mkTemporaryChild [⟨3, .leaf 2⟩] 0) rfl
